import Mathlib

/-!
# Verification of the ogr2osm geometry-to-graph conversion core

Shallow embedding of `src/ogr2osm/osm_data.py` (class `OsmData`).

Modelling conventions:
* Python floats become `ℚ`; machine floating point plays no role in the
  claims checked here (they only compare quantized keys for equality).
* Entity objects (`OsmPoint`, `OsmWay`, `OsmRelation` from the module
  `osm_geometries`, which is not part of the sources) are modelled from the
  spec as records held in arena-style stores inside `OsmData`; object
  references become identities (`Nat`).  The spec states identities are
  unique and monotonically assigned, so a single counter `next_id` hands
  them out.  Python compares entity objects by reference, which coincides
  with comparing identities.
* Python `set` back-references (`parents`) become duplicate-free lists in
  insertion order; the claims below never depend on iteration order.
* Python dicts for tags become association lists; no claim depends on
  key order.
* `logging.warning` calls are recorded in a `warnings` list in the state.
* Fatal Python exceptions (`AttributeError` on malformed collections)
  are modelled with `Except String`; they abort the run, so the state at
  the point of the raise is discarded.
-/

namespace Ogr2Osm

/-- Tag maps (`string → string` dictionaries in Python). -/
def Tags : Type := List (String × String)

instance : DecidableEq Tags := inferInstanceAs (DecidableEq (List (String × String)))

instance : Repr Tags := inferInstanceAs (Repr (List (String × String)))

instance : EmptyCollection Tags := ⟨([] : List (String × String))⟩

/-- Keys of the node deduplication index `__unique_node_index`.
Way-member nodes use the quantized coordinate pair; standalone point
features use a caller-supplied identifier (modelled as an abstract `Nat`
payload, matching the pluggable `get_unique_node_identifier`). -/
inductive NodeKey where
  | way_member (rx ry : Int)
  | custom (k : Nat)
deriving DecidableEq, Repr

/-- A relation member is one of {Point, Way, Relation}, identified by id
(the tagged union the spec prescribes for relation members). -/
inductive Member where
  | node (id : Nat)
  | way (id : Nat)
  | rel (id : Nat)
deriving DecidableEq, Repr

/-- Modelled from the spec: `OsmPoint` of the missing `osm_geometries`
module: identity, double-precision position, tag map and the set of
parent entities (back-references, stored as a duplicate-free id list). -/
structure OsmPoint where
  id : Nat
  x : ℚ
  y : ℚ
  tags : Tags
  parents : List Nat
deriving DecidableEq, Repr

/-- Modelled from the spec: `OsmWay` of the missing `osm_geometries`
module: identity, tag map, ordered sequence of node references (ids) and
parent back-references. -/
structure OsmWay where
  id : Nat
  tags : Tags
  nodes : List Nat
  parents : List Nat
deriving DecidableEq, Repr

/-- Modelled from the spec: `OsmRelation` of the missing `osm_geometries`
module: identity, tag map, ordered `(member, role)` list and parent
back-references. -/
structure OsmRelation where
  id : Nat
  tags : Tags
  members : List (Member × String)
  parents : List Nat
deriving DecidableEq, Repr

/-- Modelled from the spec: `addparent` adds a back-reference (set
semantics: no duplicates, insertion order kept). -/
def addparent (pid : Nat) (parents : List Nat) : List Nat :=
  if pid ∈ parents then parents else parents ++ [pid]

/-- Modelled from the spec: `removeparent` discards a back-reference. -/
def removeparent (pid : Nat) (parents : List Nat) : List Nat :=
  parents.filter (fun q => q ≠ pid)

/-- Modelled from the spec: `get_member_role` returns the role stored
with the first `(member, role)` pair for the given member (used by the
way splitter to preserve the original member's role). -/
def OsmRelation.get_member_role (r : OsmRelation) (m : Member) : String :=
  match r.members.find? (fun p => p.1 = m) with
  | some p => p.2
  | none => ""

/-- The pluggable translation policy (external interface, §6 of the
spec); only the operations the core functions under proof consult. -/
structure Translation where
  merge_tags : String → Tags → Tags → Option Tags
  get_unique_node_identifier : Int → Int → Tags → NodeKey

/-- The state of an `OsmData` instance: configuration knobs, entity
stores, the quantized dedup index (association list from key to the list
of indices into `nodes`), the id counter and the warning log. -/
structure OsmData where
  rounding_digits : Nat
  max_points_in_way : Int
  nodes : List OsmPoint
  unique_node_index : List (NodeKey × List Nat)
  ways : List OsmWay
  relations : List OsmRelation
  next_id : Nat
  warnings : List String
deriving DecidableEq, Repr

/-- Append a `logging.warning` message. -/
def warn (st : OsmData) (msg : String) : OsmData :=
  { st with warnings := st.warnings ++ [msg] }

/-- Association-list lookup for the dedup index. -/
def lookupKey (k : NodeKey) : List (NodeKey × List Nat) → Option (List Nat)
  | [] => none
  | (k1, v) :: rest => if k1 = k then some v else lookupKey k rest

/-- Association-list insert/overwrite for the dedup index. -/
def insertKey (k : NodeKey) (v : List Nat) :
    List (NodeKey × List Nat) → List (NodeKey × List Nat)
  | [] => [(k, v)]
  | (k1, v1) :: rest =>
      if k1 = k then (k, v) :: rest else (k1, v1) :: insertKey k v rest

/-- Python's `round` (banker's rounding, round-half-to-even) on exact
rationals. -/
def py_round (q : ℚ) : Int :=
  let f : Int := ⌊q⌋
  let r : ℚ := q - f
  if r < 1/2 then f
  else if 1/2 < r then f + 1
  else if f % 2 = 0 then f else f + 1

/-- `OsmData.__round_number`: `int(round(n * 10**rounding_digits))`. -/
def round_number (digits : Nat) (n : ℚ) : Int :=
  py_round (n * 10 ^ digits)

/-- `OsmData.__add_node` candidate scan: walk the bucket's node indices
and return the first node the merge policy accepts, already carrying the
merged tags.  (In Python an out-of-range index would be an internal
invariant breach; such indices are skipped here and never occur in
well-formed states.) -/
def find_merge_node (tr : Translation) (nodes : List OsmPoint) (tags : Tags) :
    List Nat → Option (Nat × OsmPoint)
  | [] => none
  | idx :: rest =>
    match nodes[idx]? with
    | some nd =>
      match tr.merge_tags "node" nd.tags tags with
      | some merged => some (idx, { nd with tags := merged })
      | none => find_merge_node tr nodes tags rest
    | none => find_merge_node tr nodes tags rest

/-- The `unique_node_id` computed by `__add_node`: quantized coordinates
for way members, the legacy translation-supplied identifier otherwise. -/
def node_key (tr : Translation) (st : OsmData) (x y : ℚ) (tags : Tags)
    (is_way_member : Bool) : NodeKey :=
  let rx := round_number st.rounding_digits x
  let ry := round_number st.rounding_digits y
  if is_way_member then NodeKey.way_member rx ry
  else tr.get_unique_node_identifier rx ry tags

/-- `OsmData.__add_node`. -/
def add_node (tr : Translation) (st : OsmData) (x y : ℚ) (tags : Tags)
    (is_way_member : Bool) : OsmPoint × OsmData :=
  match lookupKey (node_key tr st x y tags is_way_member) st.unique_node_index with
  | some bucket =>
    match find_merge_node tr st.nodes tags bucket with
    | some (idx, nd) => (nd, { st with nodes := st.nodes.set idx nd })
    | none =>
      let node : OsmPoint := ⟨st.next_id, x, y, tags, []⟩
      (node, { st with
        nodes := st.nodes ++ [node],
        unique_node_index := insertKey (node_key tr st x y tags is_way_member)
          (bucket ++ [st.nodes.length]) st.unique_node_index,
        next_id := st.next_id + 1 })
  | none =>
    let node : OsmPoint := ⟨st.next_id, x, y, tags, []⟩
    (node, { st with
      nodes := st.nodes ++ [node],
      unique_node_index := insertKey (node_key tr st x y tags is_way_member)
        [st.nodes.length] st.unique_node_index,
      next_id := st.next_id + 1 })

/-- `OsmData.__add_way`. -/
def add_way (st : OsmData) (tags : Tags) : OsmWay × OsmData :=
  let way : OsmWay := ⟨st.next_id, tags, [], []⟩
  (way, { st with ways := st.ways ++ [way], next_id := st.next_id + 1 })

/-- `OsmData.__add_relation`. -/
def add_relation (st : OsmData) (tags : Tags) : OsmRelation × OsmData :=
  let r : OsmRelation := ⟨st.next_id, tags, [], []⟩
  (r, { st with relations := st.relations ++ [r], next_id := st.next_id + 1 })

/-- The running minimum scan of `__get_ordered_nodes`: the accumulator is
`(lowest_index, lowest_node_id)`, each visited pair is `(i, nodes[i].id)`,
and the strict `<` keeps the first occurrence of the minimum. -/
def lowest_step (acc : Nat × Nat) (p : Nat × Nat) : Nat × Nat :=
  if p.2 < acc.2 then p else acc

/-- `(lowest_index, lowest_node_id)` after the loop
`for i in range(1, len(nodes))` of `__get_ordered_nodes`. -/
def lowest_pair : List Nat → Nat × Nat
  | [] => (0, 0)
  | n0 :: rest => (List.enumFrom 1 rest).foldl lowest_step (0, n0)

/-- `OsmData.__get_ordered_nodes`, acting on node-id sequences (Python
compares node objects, which coincides with comparing their ids). -/
def get_ordered_nodes (nodes : List Nat) : List Nat :=
  if 2 < nodes.length ∧ nodes.head? = nodes.getLast? then
    let li := (lowest_pair nodes).1
    (nodes.drop li).dropLast ++ nodes.take (li + 1)
  else nodes

/-- `OsmData.__verify_duplicate_ways`. -/
def verify_duplicate_ways (potential_duplicate_ways : List OsmWay)
    (nodes : List Nat) : List (OsmWay × String) :=
  let ordered_nodes := get_ordered_nodes nodes
  potential_duplicate_ways.foldl
    (fun acc dupway =>
      if dupway.nodes.length = nodes.length then
        let dupnodes := get_ordered_nodes dupway.nodes
        if dupnodes = ordered_nodes then acc ++ [(dupway, "way")]
        else if dupnodes = ordered_nodes.reverse then acc ++ [(dupway, "reverse_way")]
        else acc
      else acc)
    []

/-- `OsmData.__verify_duplicate_relations`. -/
def verify_duplicate_relations (potential_duplicate_relations : List OsmRelation)
    (members : List (Member × String)) : List OsmRelation :=
  potential_duplicate_relations.foldl
    (fun acc duprelation =>
      if duprelation.members = members then acc ++ [duprelation] else acc)
    []

/-! ## OGR geometries and the geometry parser -/

/-- OGR geometry type codes (`osgeo.ogr` constants). -/
def wkbPoint : Int := 1
def wkbLineString : Int := 2
def wkbPolygon : Int := 3
def wkbMultiPoint : Int := 4
def wkbMultiLineString : Int := 5
def wkbMultiPolygon : Int := 6
def wkbGeometryCollection : Int := 7
def wkbLinearRing : Int := 101
def wkbPoint25D : Int := -2147483647
def wkbLineString25D : Int := -2147483646
def wkbPolygon25D : Int := -2147483645
def wkbMultiPoint25D : Int := -2147483644
def wkbMultiLineString25D : Int := -2147483643
def wkbMultiPolygon25D : Int := -2147483642
def wkbGeometryCollection25D : Int := -2147483641

/-- An OGR geometry: its `GetGeometryType` code, its own points
(`GetPointCount` / `GetPoint`, each an `(x, y, z)` triple) and its
sub-geometries (`GetGeometryCount` / `GetGeometryRef`). -/
inductive OgrGeometry where
  | mk (gtype : Int) (points : List (ℚ × ℚ × ℚ)) (children : List OgrGeometry)

def OgrGeometry.gtype : OgrGeometry → Int
  | .mk t _ _ => t

def OgrGeometry.points : OgrGeometry → List (ℚ × ℚ × ℚ)
  | .mk _ ps _ => ps

def OgrGeometry.children : OgrGeometry → List OgrGeometry
  | .mk _ _ cs => cs

/-- Stand-in for a missing sub-geometry; never consulted on the
well-formed inputs the claims quantify over. -/
def defGeom : OgrGeometry := .mk 0 [] []

/-- The produced entities (Python returns heterogeneous lists of
points, ways and relations). -/
inductive OsmEntity where
  | point (p : OsmPoint)
  | way (w : OsmWay)
  | rel (r : OsmRelation)
deriving DecidableEq, Repr

/-- `OsmData.__parse_point`: standalone point features use the legacy
non-quantized identifier path (`is_way_member = False`). -/
def parse_point (tr : Translation) (st : OsmData) (g : OgrGeometry) (tags : Tags) :
    OsmPoint × OsmData :=
  let p := g.points.getD 0 (0, 0, 0)
  add_node tr st p.1 p.2.1 tags false

/-- Set-style `addparent` on a node in the store. -/
def node_addparent (st : OsmData) (nid pid : Nat) : OsmData :=
  let f := fun (p : OsmPoint) =>
    if p.id = nid then { p with parents := addparent pid p.parents } else p
  { st with nodes := st.nodes.map f }

/-- Set-style `addparent` on a way in the store. -/
def way_addparent (st : OsmData) (wid pid : Nat) : OsmData :=
  let f := fun (w : OsmWay) =>
    if w.id = wid then { w with parents := addparent pid w.parents } else w
  { st with ways := st.ways.map f }

/-- Append a `(member, role)` pair to a relation's member list in the store. -/
def rel_append_member (st : OsmData) (rid : Nat) (m : Member) (role : String) : OsmData :=
  let f := fun (r : OsmRelation) =>
    if r.id = rid then { r with members := r.members ++ [(m, role)] } else r
  { st with relations := st.relations.map f }

/-- Loop state of `__parse_linestring`: `previous_node_id`, the `nodes`
list built so far (as ids), the `potential_duplicate_ways` (as way ids;
Python keeps the set iteration order of the first node's parents, which
the model fixes to insertion order) and the store. -/
structure LsAcc where
  prev : Option Nat
  nodes : List Nat
  pdw : List Nat
  st : OsmData

/-- One iteration of the point loop of `__parse_linestring`. -/
def ls_step (tr : Translation) (acc : LsAcc) (pt : ℚ × ℚ × ℚ) : LsAcc :=
  let r := add_node tr acc.st pt.1 pt.2.1 {} true
  let node := r.1
  let st1 := r.2
  if acc.prev = none ∨ acc.prev ≠ some node.id then
    let pdw1 :=
      if acc.prev = none then
        -- first node: all parent ways become potential duplicates
        node.parents.filter (fun pid => st1.ways.any (fun w => w.id = pid))
      else if node.parents = [] ∧ acc.pdw ≠ [] then
        -- a node belonging to no other way proves this way unique
        []
      else acc.pdw
    ⟨some node.id, acc.nodes ++ [node.id], pdw1, st1⟩
  else
    ⟨acc.prev, acc.nodes, acc.pdw, st1⟩

/-- The duplicate-merge loop of `__parse_linestring` (and, with other
roles, of `__parse_polygon`): first accepted merge wins; the result
carries the merged tags. -/
def find_merge_way (tr : Translation) (tags : Tags) :
    List (OsmWay × String) → Option OsmWay
  | [] => none
  | (dupway, role) :: rest =>
    match tr.merge_tags role dupway.tags tags with
    | some merged => some { dupway with tags := merged }
    | none => find_merge_way tr tags rest

/-- `OsmData.__parse_linestring`. -/
def parse_linestring (tr : Translation) (st : OsmData) (g : OgrGeometry)
    (tags : Tags) : OsmWay × OsmData :=
  let acc := g.points.foldl (ls_step tr) ⟨none, [], [], st⟩
  let potential_duplicate_ways :=
    acc.pdw.filterMap (fun pid => acc.st.ways.find? (fun w => w.id = pid))
  let duplicate_ways := verify_duplicate_ways potential_duplicate_ways acc.nodes
  match find_merge_way tr tags duplicate_ways with
  | some dw =>
    (dw, { acc.st with ways := acc.st.ways.map (fun w => if w.id = dw.id then dw else w) })
  | none =>
    let way : OsmWay := ⟨acc.st.next_id, tags, acc.nodes, []⟩
    let st1 := { acc.st with ways := acc.st.ways ++ [way], next_id := acc.st.next_id + 1 }
    let st2 := acc.nodes.foldl (fun s nid => node_addparent s nid way.id) st1
    (way, st2)

/-- The duplicate-merge loop of `__parse_polygon` over candidate
relations. -/
def find_merge_relation (tr : Translation) (tags : Tags) :
    List OsmRelation → Option OsmRelation
  | [] => none
  | duprelation :: rest =>
    match tr.merge_tags "relation" duprelation.tags tags with
    | some merged => some { duprelation with tags := merged }
    | none => find_merge_relation tr tags rest

/-- Member step of the interior-ring loop of `__parse_polygon`. -/
def polygon_interior_step (tr : Translation)
    (acc : List (Member × String) × List Nat × OsmData) (ig : OgrGeometry) :
    List (Member × String) × List Nat × OsmData :=
  let r := parse_linestring tr acc.2.2 ig {}
  let interior := r.1
  let st1 := r.2
  let members1 := acc.1 ++ [(Member.way interior.id, "inner")]
  let pdr1 := if interior.parents = [] ∧ acc.2.1 ≠ [] then [] else acc.2.1
  (members1, pdr1, st1)

/-- `OsmData.__parse_polygon`. -/
def parse_polygon (tr : Translation) (st : OsmData) (g : OgrGeometry)
    (tags : Tags) : Option OsmEntity × OsmData :=
  if g.children.length = 0 then
    (none, warn st "Polygon with no rings?")
  else if g.children.length = 1 ∧
      ((g.children.getD 0 defGeom).points.length : Int) ≤ st.max_points_in_way then
    -- only 1 linestring which is not too long: no relation required
    let r := parse_linestring tr st (g.children.getD 0 defGeom) tags
    (some (.way r.1), r.2)
  else
    let ring0 := g.children.getD 0 defGeom
    if ring0.gtype = wkbLineString ∨ ring0.gtype = wkbLinearRing ∨
        ring0.gtype = wkbLineString25D then
      let re := parse_linestring tr st ring0 {}
      let exterior := re.1
      let st1 := re.2
      let members0 : List (Member × String) := [(Member.way exterior.id, "outer")]
      let pdr0 := exterior.parents.filter (fun pid =>
        st1.relations.any (fun r =>
          r.id = pid ∧ r.get_member_role (Member.way exterior.id) = "outer"))
      let step := (g.children.drop 1).foldl (polygon_interior_step tr) (members0, pdr0, st1)
      let members := step.1
      let st2 := step.2.2
      let potential_duplicate_relations :=
        step.2.1.filterMap (fun pid => st2.relations.find? (fun r => r.id = pid))
      let duplicate_relations :=
        verify_duplicate_relations potential_duplicate_relations members
      match find_merge_relation tr tags duplicate_relations with
      | some dr =>
        (some (.rel dr),
         { st2 with relations := st2.relations.map (fun r => if r.id = dr.id then dr else r) })
      | none =>
        let ra := add_relation st2 tags
        let relation := ra.1
        let st3 := members.foldl (fun s m =>
          match m.1 with
          | .node nid => node_addparent s nid relation.id
          | .way wid => way_addparent s wid relation.id
          | .rel rid =>
            { s with relations := s.relations.map (fun r =>
                if r.id = rid then { r with parents := addparent relation.id r.parents } else r) })
          ra.2
        let st4 := { st3 with relations := st3.relations.map (fun r =>
          if r.id = relation.id then { r with members := members } else r) }
        (some (.rel { relation with members := members }), st4)
    else
      (none, warn st "Polygon with no exterior ring?")

/-- The per-polygon-part loop of the multipolygon branch of
`__parse_collection`: exterior ring as role `"outer"`, interior rings as
role `"inner"`.  A part without rings makes Python call
`__parse_linestring(None)`, raising `AttributeError`. -/
def mp_parts_loop (tr : Translation) (rid : Nat) :
    List OgrGeometry → OsmData → Except String OsmData
  | [], st => .ok st
  | part :: rest, st =>
    match part.children with
    | [] => .error "AttributeError: NoneType has no GetPointCount"
    | ext_geom :: interiors =>
      let re := parse_linestring tr st ext_geom {}
      let st1 := way_addparent re.2 re.1.id rid
      let st2 := rel_append_member st1 rid (Member.way re.1.id) "outer"
      let st3 := interiors.foldl (fun s ig =>
        let ri := parse_linestring tr s ig {}
        rel_append_member (way_addparent ri.2 ri.1.id rid) rid
          (Member.way ri.1.id) "inner") st2
      mp_parts_loop tr rid rest st3

/-- `OsmData.__parse_collection`.  The generic-collection branch of the
source appends the *list* returned by `__parse_geometry` as a member and
then calls `.addparent` on it, which raises `AttributeError` whenever the
collection is non-empty; the raise is modelled by `.error` (the mutated
state is unobservable because the exception aborts the run). -/
def parse_collection (tr : Translation) (st : OsmData) (g : OgrGeometry)
    (tags : Tags) : Except String (List (Option OsmEntity) × OsmData) :=
  let geometry_type := g.gtype
  if geometry_type = wkbMultiPolygon ∨ geometry_type = wkbMultiPolygon25D then
    if 1 < g.children.length then
      let ra := add_relation st tags
      match mp_parts_loop tr ra.1.id g.children ra.2 with
      | .error e => .error e
      | .ok st2 =>
        .ok ([some (.rel ((st2.relations.find? (fun r => r.id = ra.1.id)).getD ra.1))], st2)
    else
      match g.children with
      | [] => .error "AttributeError: NoneType has no GetGeometryCount"
      | c0 :: _ =>
        let r := parse_polygon tr st c0 tags
        .ok ([r.1], r.2)
  else if geometry_type = wkbMultiLineString ∨ geometry_type = wkbMultiLineString25D then
    .ok (g.children.foldl (fun acc c =>
      let r := parse_linestring tr acc.2 c tags
      (acc.1 ++ [some (.way r.1)], r.2)) ([], st))
  else
    let ra := add_relation st tags
    match g.children with
    | [] => .ok ([some (.rel ra.1)], ra.2)
    | _ :: _ => .error "AttributeError: list object has no attribute addparent"

/-- `OsmData.__parse_geometry`. -/
def parse_geometry (tr : Translation) (st : OsmData) (g : OgrGeometry)
    (tags : Tags) : Except String (List (Option OsmEntity) × OsmData) :=
  let geometry_type := g.gtype
  if geometry_type = wkbPoint ∨ geometry_type = wkbPoint25D then
    let r := parse_point tr st g tags
    .ok ([some (.point r.1)], r.2)
  else if geometry_type = wkbLineString ∨ geometry_type = wkbLinearRing ∨
      geometry_type = wkbLineString25D then
    let r := parse_linestring tr st g tags
    .ok ([some (.way r.1)], r.2)
  else if geometry_type = wkbPolygon ∨ geometry_type = wkbPolygon25D then
    let r := parse_polygon tr st g tags
    .ok ([r.1], r.2)
  else if geometry_type = wkbMultiPoint ∨ geometry_type = wkbMultiLineString ∨
      geometry_type = wkbMultiPolygon ∨ geometry_type = wkbGeometryCollection ∨
      geometry_type = wkbMultiPoint25D ∨ geometry_type = wkbMultiLineString25D ∨
      geometry_type = wkbMultiPolygon25D ∨ geometry_type = wkbGeometryCollection25D then
    parse_collection tr st g tags
  else
    .ok ([], warn st ("Unhandled geometry, type " ++ toString geometry_type))

/-! ## The way splitter -/

/-- Set-style `removeparent` on a node in the store. -/
def node_removeparent (st : OsmData) (nid pid : Nat) : OsmData :=
  let f := fun (p : OsmPoint) =>
    if p.id = nid then { p with parents := removeparent pid p.parents } else p
  { st with nodes := st.nodes.map f }

/-- The chunking comprehension of `__split_way`:
`[ nodes[i:i+size] for i in range(0, len(nodes), step) ]`.
For `step ≥ 1` (the source always calls it with
`step = max_points_in_way - 1 ≥ 1`, guarded by `split_long_ways`),
`range(0, n, step)` is `[step*k for k in range(ceil(n/step))]` with
`ceil(n/step) = (n + step - 1) / step`. -/
def slices (size step : Nat) (l : List Nat) : List (List Nat) :=
  (List.range ((l.length + step - 1) / step)).map
    (fun k => (l.drop (step * k)).take size)

/-- One iteration of the `zip` loop of `__split_way` for a freshly
created chunk way: append it to the way store, then for each of its
nodes remove the original way as parent and add the chunk way. -/
def split_apply_chunk (oldid : Nat) (s : OsmData) (nw : OsmWay) : OsmData :=
  let s1 := { s with ways := s.ways ++ [nw] }
  nw.nodes.foldl (fun s2 nid => node_addparent (node_removeparent s2 nid oldid) nid nw.id) s1

/-- The fresh ways `[ OsmWay(way.tags) for i in range(len(new_nodes)-1) ]`
of `__split_way`, with their chunk node lists already attached (ids are
assigned in creation order from the counter). -/
def fresh_chunk_ways (next_id : Nat) (tags : Tags) (rest : List (List Nat)) : List OsmWay :=
  rest.enum.map
    (fun p => ({ id := next_id + p.1, tags := tags, nodes := p.2, parents := [] } : OsmWay))

/-- Rest of `__split_way`, once `new_nodes` (the chunk list) is known:
`new_ways = [way] + fresh ways`, then the `zip` loop: the original way
keeps the first chunk, every further chunk becomes a fresh appended way
whose nodes swap their parent from the original to the chunk way. -/
def split_way_chunks (st : OsmData) (i : Nat) (way : OsmWay) :
    List (List Nat) → List Nat × OsmData
  | [] => ([way.id], st)
  | c0 :: rest =>
    let w0 := { way with nodes := c0 }
    let freshes := fresh_chunk_ways st.next_id way.tags rest
    let st1 := { st with ways := st.ways.set i w0, next_id := st.next_id + rest.length }
    (w0.id :: freshes.map (fun w => w.id), freshes.foldl (split_apply_chunk way.id) st1)

def split_way_core (st : OsmData) (i : Nat) (way : OsmWay) : List Nat × OsmData :=
  split_way_chunks st i way
    (slices st.max_points_in_way.toNat (st.max_points_in_way.toNat - 1) way.nodes)

/-- `OsmData.__split_way`, acting on the way at index `i` of the store;
returns the ids of `new_ways` (original way first) and the new state. -/
def split_way (st : OsmData) (i : Nat) : List Nat × OsmData :=
  match st.ways[i]? with
  | none => ([], st)
  | some way => split_way_core st i way

/-- The `way_role` read of `__split_way_in_relation`:
`rel.get_member_role(way_parts[0])`. -/
def split_relation_role (st : OsmData) (rid : Nat) (way_parts : List Nat) : String :=
  match st.relations.find? (fun r => r.id = rid) with
  | some rel => rel.get_member_role (Member.way (way_parts.headD 0))
  | none => ""

/-- `OsmData.__split_way_in_relation`. -/
def split_way_in_relation (st : OsmData) (rid : Nat) (way_parts : List Nat) : OsmData :=
  let way_role := split_relation_role st rid way_parts
  (way_parts.drop 1).foldl (fun s pid =>
    rel_append_member (way_addparent s pid rid) rid (Member.way pid) way_role) st

/-- Number of over-long ways in a store (termination measure for the
iteration of `split_long_ways` over the growing way list). -/
def countOverlong (L : Int) (ways : List OsmWay) : Nat :=
  ways.countP (fun w => decide (L < (w.nodes.length : Int)))

/-! Field-preservation facts used by the termination argument. -/

theorem foldl_fix {α β γ : Type _} (g : α → γ) (f : α → β → α)
    (h : ∀ a b, g (f a b) = g a) (l : List β) (s : α) : g (l.foldl f s) = g s := by
  induction l generalizing s with
  | nil => rfl
  | cons b bs ih => rw [List.foldl_cons, ih, h]

@[simp] theorem node_addparent_ways (st : OsmData) (nid pid : Nat) :
    (node_addparent st nid pid).ways = st.ways := rfl

@[simp] theorem node_addparent_max (st : OsmData) (nid pid : Nat) :
    (node_addparent st nid pid).max_points_in_way = st.max_points_in_way := rfl

@[simp] theorem node_removeparent_ways (st : OsmData) (nid pid : Nat) :
    (node_removeparent st nid pid).ways = st.ways := rfl

@[simp] theorem node_removeparent_max (st : OsmData) (nid pid : Nat) :
    (node_removeparent st nid pid).max_points_in_way = st.max_points_in_way := rfl

@[simp] theorem way_addparent_max (st : OsmData) (wid pid : Nat) :
    (way_addparent st wid pid).max_points_in_way = st.max_points_in_way := rfl

@[simp] theorem rel_append_member_ways (st : OsmData) (rid : Nat) (m : Member) (role : String) :
    (rel_append_member st rid m role).ways = st.ways := rfl

@[simp] theorem rel_append_member_max (st : OsmData) (rid : Nat) (m : Member) (role : String) :
    (rel_append_member st rid m role).max_points_in_way = st.max_points_in_way := rfl

@[simp] theorem way_addparent_nodes_map (st : OsmData) (wid pid : Nat) :
    (way_addparent st wid pid).ways.map (fun w => w.nodes) = st.ways.map (fun w => w.nodes) := by
  simp only [way_addparent, List.map_map]
  apply List.map_congr_left
  intro w _
  by_cases h : w.id = wid <;> simp [h]

theorem split_apply_chunk_ways (oldid : Nat) (s : OsmData) (nw : OsmWay) :
    (split_apply_chunk oldid s nw).ways = s.ways ++ [nw] :=
  foldl_fix (fun (x : OsmData) => x.ways)
    (fun s2 nid => node_addparent (node_removeparent s2 nid oldid) nid nw.id)
    (fun _ _ => rfl) nw.nodes { s with ways := s.ways ++ [nw] }

theorem split_apply_chunk_max (oldid : Nat) (s : OsmData) (nw : OsmWay) :
    (split_apply_chunk oldid s nw).max_points_in_way = s.max_points_in_way :=
  foldl_fix (fun (x : OsmData) => x.max_points_in_way)
    (fun s2 nid => node_addparent (node_removeparent s2 nid oldid) nid nw.id)
    (fun _ _ => rfl) nw.nodes { s with ways := s.ways ++ [nw] }

theorem foldl_split_apply_ways (oldid : Nat) (freshes : List OsmWay) (s : OsmData) :
    (freshes.foldl (split_apply_chunk oldid) s).ways = s.ways ++ freshes := by
  induction freshes generalizing s with
  | nil => simp
  | cons nw rest ih => simp [List.foldl_cons, ih, split_apply_chunk_ways]

theorem foldl_split_apply_max (oldid : Nat) (freshes : List OsmWay) (s : OsmData) :
    (freshes.foldl (split_apply_chunk oldid) s).max_points_in_way = s.max_points_in_way :=
  foldl_fix (fun st => st.max_points_in_way) _ (fun a b => split_apply_chunk_max oldid a b) _ _

theorem split_way_chunks_max (st : OsmData) (i : Nat) (way : OsmWay)
    (cs : List (List Nat)) :
    (split_way_chunks st i way cs).2.max_points_in_way = st.max_points_in_way := by
  cases cs with
  | nil => rfl
  | cons c0 rest =>
    show (List.foldl (split_apply_chunk way.id) _
      (fresh_chunk_ways st.next_id way.tags rest)).max_points_in_way = _
    rw [foldl_split_apply_max]

theorem split_way_max (st : OsmData) (i : Nat) :
    (split_way st i).2.max_points_in_way = st.max_points_in_way := by
  unfold split_way
  cases h : st.ways[i]? with
  | none => rfl
  | some way => exact split_way_chunks_max st i way _

theorem split_way_in_relation_ways_nodes (st : OsmData) (rid : Nat) (parts : List Nat) :
    (split_way_in_relation st rid parts).ways.map (fun w => w.nodes) =
      st.ways.map (fun w => w.nodes) :=
  foldl_fix (fun (x : OsmData) => x.ways.map (fun w => w.nodes))
    (fun s pid => rel_append_member (way_addparent s pid rid) rid (Member.way pid)
      (split_relation_role st rid parts))
    (fun a b => by simp only [rel_append_member_ways, way_addparent_nodes_map]) (parts.drop 1) st

theorem split_way_in_relation_max (st : OsmData) (rid : Nat) (parts : List Nat) :
    (split_way_in_relation st rid parts).max_points_in_way = st.max_points_in_way :=
  foldl_fix (fun (x : OsmData) => x.max_points_in_way)
    (fun s pid => rel_append_member (way_addparent s pid rid) rid (Member.way pid)
      (split_relation_role st rid parts))
    (fun _ _ => rfl) (parts.drop 1) st

theorem countOverlong_congr (L : Int) (ways ways' : List OsmWay)
    (h : ways.map (fun w => w.nodes) = ways'.map (fun w => w.nodes)) :
    countOverlong L ways = countOverlong L ways' := by
  unfold countOverlong
  induction ways generalizing ways' with
  | nil => cases ways' <;> simp_all
  | cons w rest ih =>
    cases ways' with
    | nil => simp_all
    | cons w' rest' =>
      simp only [List.map_cons, List.cons.injEq] at h
      simp [List.countP_cons, h.1, ih rest' h.2]

theorem slices_chunk_length {size step : Nat} {l : List Nat} {c : List Nat}
    (hc : c ∈ slices size step l) : c.length ≤ size := by
  unfold slices at hc
  rcases List.mem_map.1 hc with ⟨k, _, rfl⟩
  exact List.length_take_le size _

theorem slices_ne_nil (size step : Nat) (l : List Nat) (hstep : 1 ≤ step)
    (hl : l ≠ []) : slices size step l ≠ [] := by
  unfold slices
  have hlen : 0 < l.length := List.length_pos.2 hl
  have hcount : 0 < (l.length + step - 1) / step := by
    apply Nat.div_pos
    · omega
    · omega
  intro hcontra
  rw [List.map_eq_nil_iff, List.range_eq_nil] at hcontra
  omega

theorem countOverlong_not_overlong (L : Int) (ways : List OsmWay)
    (h : ∀ w ∈ ways, ¬ L < (w.nodes.length : Int)) : countOverlong L ways = 0 := by
  unfold countOverlong
  rw [List.countP_eq_zero]
  intro w hw
  simpa using h w hw

theorem split_way_eq_core (st : OsmData) (i : Nat) (way : OsmWay)
    (h : st.ways[i]? = some way) : split_way st i = split_way_core st i way := by
  unfold split_way
  rw [h]

theorem countOverlong_set_lt (L : Int) (ways : List OsmWay) (i : Nat) (way w0 : OsmWay)
    (hi : ways[i]? = some way) (hov : L < (way.nodes.length : Int))
    (hw0 : ¬ L < (w0.nodes.length : Int)) :
    countOverlong L (ways.set i w0) < countOverlong L ways := by
  have hlen : i < ways.length := by
    by_contra hn
    rw [List.getElem?_eq_none (by omega)] at hi
    exact Option.noConfusion hi
  have hget : ways[i] = way := by
    have h2 := List.getElem?_eq_getElem hlen
    rw [hi] at h2
    exact (Option.some_inj.1 h2).symm
  rw [List.set_eq_take_cons_drop w0 hlen]
  conv_rhs => rw [← List.take_append_drop i ways, List.drop_eq_getElem_cons hlen, hget]
  unfold countOverlong
  simp only [List.countP_append, List.countP_cons]
  simp [hov, hw0]

theorem split_way_count_lt (st : OsmData) (i : Nat) (way : OsmWay)
    (hway : st.ways[i]? = some way) (hL : 2 ≤ st.max_points_in_way)
    (hov : st.max_points_in_way < (way.nodes.length : Int)) :
    countOverlong st.max_points_in_way (split_way st i).2.ways
      < countOverlong st.max_points_in_way st.ways := by
  rw [split_way_eq_core st i way hway]
  unfold split_way_core
  cases hc : slices st.max_points_in_way.toNat (st.max_points_in_way.toNat - 1) way.nodes with
  | nil =>
    exfalso
    refine slices_ne_nil _ _ _ ?_ ?_ hc
    · omega
    · intro hn
      rw [hn] at hov
      simp only [List.length_nil] at hov
      omega
  | cons c0 rest =>
    show countOverlong st.max_points_in_way
      ((fresh_chunk_ways st.next_id way.tags rest).foldl (split_apply_chunk way.id)
        { st with ways := st.ways.set i { way with nodes := c0 },
                  next_id := st.next_id + rest.length }).ways
      < countOverlong st.max_points_in_way st.ways
    rw [foldl_split_apply_ways]
    have hc0 : c0.length ≤ st.max_points_in_way.toNat :=
      slices_chunk_length (by rw [hc]; exact List.mem_cons_self _ _)
    have hshort : ∀ c : List Nat, c.length ≤ st.max_points_in_way.toNat →
        ¬ st.max_points_in_way < (c.length : Int) := by
      intro c hcl
      omega
    unfold countOverlong
    rw [List.countP_append]
    have hz : List.countP (fun w => decide (st.max_points_in_way < (w.nodes.length : Int)))
        (fresh_chunk_ways st.next_id way.tags rest) = 0 := by
      rw [List.countP_eq_zero]
      intro w hw
      unfold fresh_chunk_ways at hw
      rcases List.mem_map.1 hw with ⟨p, hp, rfl⟩
      have hp2 : p.2 ∈ rest := List.getElem?_mem (List.mem_enum_iff_getElem?.1 hp)
      have hwl : p.2.length ≤ st.max_points_in_way.toNat :=
        slices_chunk_length (by rw [hc]; exact List.mem_cons_of_mem _ hp2)
      simpa using hshort _ hwl
    rw [hz, Nat.add_zero]
    exact countOverlong_set_lt _ _ _ way _ hway hov (hshort _ hc0)

/-- The body of the iteration `for way in self.__ways` of
`split_long_ways` at index `i`: if the way at `i` is over-long, split it
and repair every parent relation. -/
def split_step (st : OsmData) (i : Nat) : OsmData :=
  match st.ways[i]? with
  | none => st
  | some way =>
    if st.max_points_in_way < (way.nodes.length : Int) then
      let r := split_way st i
      way.parents.foldl (fun s rid => split_way_in_relation s rid r.1) r.2
    else st

theorem split_step_none (st : OsmData) (i : Nat) (h : st.ways[i]? = none) :
    split_step st i = st := by
  unfold split_step
  rw [h]

theorem split_step_some (st : OsmData) (i : Nat) (way : OsmWay)
    (h : st.ways[i]? = some way) :
    split_step st i =
      if st.max_points_in_way < (way.nodes.length : Int) then
        way.parents.foldl (fun s rid => split_way_in_relation s rid (split_way st i).1)
          (split_way st i).2
      else st := by
  unfold split_step
  rw [h]

theorem split_step_max (st : OsmData) (i : Nat) :
    (split_step st i).max_points_in_way = st.max_points_in_way := by
  cases hway : st.ways[i]? with
  | none => rw [split_step_none st i hway]
  | some way =>
    rw [split_step_some st i way hway]
    by_cases hov : st.max_points_in_way < (way.nodes.length : Int)
    · rw [if_pos hov]
      rw [foldl_fix (fun (x : OsmData) => x.max_points_in_way) _
        (fun a b => split_way_in_relation_max a b (split_way st i).1) _ _]
      exact split_way_max st i
    · rw [if_neg hov]

theorem split_step_count (st : OsmData) (i : Nat) (hL : 2 ≤ st.max_points_in_way) :
    countOverlong st.max_points_in_way (split_step st i).ways
        < countOverlong st.max_points_in_way st.ways ∨
      split_step st i = st := by
  cases hway : st.ways[i]? with
  | none => right; rw [split_step_none st i hway]
  | some way =>
    rw [split_step_some st i way hway]
    by_cases hov : st.max_points_in_way < (way.nodes.length : Int)
    · left
      rw [if_pos hov]
      have hcountfold : countOverlong st.max_points_in_way
          ((way.parents.foldl (fun s rid => split_way_in_relation s rid (split_way st i).1)
            (split_way st i).2)).ways =
          countOverlong st.max_points_in_way (split_way st i).2.ways := by
        refine countOverlong_congr _ _ _ ?_
        exact foldl_fix (fun (x : OsmData) => x.ways.map (fun w => w.nodes)) _
          (fun a b => split_way_in_relation_ways_nodes a b (split_way st i).1) _ _
      rw [hcountfold]
      exact split_way_count_lt st i way hway hL hov
    · right
      rw [if_neg hov]

/-- The iteration `for way in self.__ways` of `split_long_ways`,
index-based because Python list iteration observes the ways appended by
`__split_way` during the loop.  The `2 ≤ max_points_in_way` test is the
guard under which `split_long_ways` enters the loop; carrying it in the
loop condition (where it is invariant) makes termination provable. -/
def split_loop (st : OsmData) (i : Nat) : OsmData :=
  if h : i < st.ways.length ∧ 2 ≤ st.max_points_in_way then
    split_loop (split_step st i) (i + 1)
  else st
termination_by (countOverlong st.max_points_in_way st.ways, st.ways.length - i)
decreasing_by
  rcases split_step_count st i h.2 with hlt | heq
  · apply Prod.Lex.left
    rw [split_step_max]
    exact hlt
  · rw [heq]
    apply Prod.Lex.right
    omega

theorem split_loop_enter (st : OsmData) (i : Nat)
    (h : i < st.ways.length ∧ 2 ≤ st.max_points_in_way) :
    split_loop st i = split_loop (split_step st i) (i + 1) := by
  rw [split_loop]
  rw [dif_pos h]

theorem split_loop_exit (st : OsmData) (i : Nat)
    (h : ¬ (i < st.ways.length ∧ 2 ≤ st.max_points_in_way)) :
    split_loop st i = st := by
  rw [split_loop]
  rw [dif_neg h]

/-- `OsmData.split_long_ways`. -/
def split_long_ways (st : OsmData) : OsmData :=
  if st.max_points_in_way < 2 then
    -- pointless :-)
    st
  else
    split_loop st 0

/-! ## Claim C9: a way-length limit below 2 disables splitting -/

/-- C9: if the configured maximum points per way is less than 2,
`split_long_ways` is a no-op: the state (ways, node sequences, node
parent sets, relation member lists) is returned unchanged and no error
is raised. -/
theorem split_long_ways_below_two_noop (st : OsmData)
    (h : st.max_points_in_way < 2) : split_long_ways st = st := by
  unfold split_long_ways
  rw [if_pos h]

/-- Witness for C9 at a concrete state with limit 1 and an over-long way. -/
theorem split_long_ways_below_two_noop_witness :
    (OsmData.mk 7 1 [] []
        [⟨100, ([] : List (String × String)), [10, 11, 12], []⟩] [] 300 []).max_points_in_way < 2 ∧
      split_long_ways (OsmData.mk 7 1 [] []
        [⟨100, ([] : List (String × String)), [10, 11, 12], []⟩] [] 300 []) =
      OsmData.mk 7 1 [] []
        [⟨100, ([] : List (String × String)), [10, 11, 12], []⟩] [] 300 [] :=
  ⟨by decide, split_long_ways_below_two_noop _ (by decide)⟩

/-! ## Claim C1 (counterexample): splitting a way of `2L-1` nodes -/

/-- Counterexample to C1 as stated: with `L = 2`, splitting the
3-node way `[10, 11, 12]` produces exactly 3 ways (the chunk indices
`range(0, 2L-1, L-1)` include `2L-2`, yielding a trailing single-node
chunk), not 2. -/
theorem split_two_L_minus_one_gives_three_ways :
    ((split_long_ways (OsmData.mk 0 2 [] []
        [⟨100, ([] : List (String × String)), [10, 11, 12], [200]⟩]
        [⟨200, ([] : List (String × String)), [(Member.way 100, "outer")], []⟩]
        300 [])).ways.length = 3 ∧
      ¬ (split_long_ways (OsmData.mk 0 2 [] []
        [⟨100, ([] : List (String × String)), [10, 11, 12], [200]⟩]
        [⟨200, ([] : List (String × String)), [(Member.way 100, "outer")], []⟩]
        300 [])).ways.length = 2) := by
  rw [split_long_ways, if_neg (by decide), split_loop_enter _ _ (by decide),
    split_loop_enter _ _ (by decide), split_loop_enter _ _ (by decide),
    split_loop_exit _ _ (by decide)]
  refine ⟨by decide, by decide⟩

/-! ## Claims C4 and C5: node interning under the merge policy -/

@[simp] theorem node_key_way_member (tr : Translation) (st : OsmData) (x y : ℚ)
    (tags : Tags) :
    node_key tr st x y tags true =
      NodeKey.way_member (round_number st.rounding_digits x)
        (round_number st.rounding_digits y) := rfl

theorem find_merge_node_of_none (tr : Translation) (nodes : List OsmPoint) (tags : Tags)
    (h : ∀ a b, tr.merge_tags "node" a b = none) (bucket : List Nat) :
    find_merge_node tr nodes tags bucket = none := by
  induction bucket with
  | nil => rfl
  | cons idx rest ih =>
    unfold find_merge_node
    split
    · rename_i nd hnd
      rw [h]
      exact ih
    · exact ih

theorem lookupKey_insertKey_self (k : NodeKey) (v : List Nat)
    (idx : List (NodeKey × List Nat)) : lookupKey k (insertKey k v idx) = some v := by
  induction idx with
  | nil => simp [insertKey, lookupKey]
  | cons p rest ih =>
    obtain ⟨k1, v1⟩ := p
    by_cases h : k1 = k
    · simp [insertKey, h, lookupKey]
    · simp [insertKey, h, lookupKey, ih]

theorem lookupKey_mem (k : NodeKey) (v : List Nat) (idx : List (NodeKey × List Nat))
    (h : lookupKey k idx = some v) : (k, v) ∈ idx := by
  induction idx with
  | nil => simp [lookupKey] at h
  | cons p rest ih =>
    obtain ⟨k1, v1⟩ := p
    by_cases hk : k1 = k
    · rw [lookupKey, if_pos hk] at h
      subst hk
      rw [Option.some_inj.1 h]
      exact List.mem_cons_self _ _
    · rw [lookupKey, if_neg hk] at h
      exact List.mem_cons_of_mem _ (ih h)

/-- `__add_node` with a merge policy that always declines, way-member
path: a fresh node is appended and its index recorded at the end of the
key's bucket (an absent key behaving as the empty bucket). -/
theorem add_node_nomerge (tr : Translation) (st : OsmData) (x y : ℚ) (tags : Tags)
    (hmerge : ∀ a b, tr.merge_tags "node" a b = none) :
    add_node tr st x y tags true =
      (⟨st.next_id, x, y, tags, []⟩,
       { st with
         nodes := st.nodes ++ [⟨st.next_id, x, y, tags, []⟩],
         unique_node_index := insertKey
           (NodeKey.way_member (round_number st.rounding_digits x)
             (round_number st.rounding_digits y))
           (((lookupKey (NodeKey.way_member (round_number st.rounding_digits x)
               (round_number st.rounding_digits y)) st.unique_node_index).getD [])
             ++ [st.nodes.length])
           st.unique_node_index,
         next_id := st.next_id + 1 }) := by
  unfold add_node
  split
  · rename_i bucket hlk
    split
    · rename_i idx nd hfm
      rw [find_merge_node_of_none tr st.nodes tags hmerge bucket] at hfm
      exact Option.noConfusion hfm
    · rw [node_key_way_member] at hlk ⊢
      rw [hlk]
      simp
  · rename_i hlk
    rw [node_key_way_member] at hlk ⊢
    rw [hlk]
    simp

/-- C4: interning two coordinate pairs that quantize to the same key,
under a merge policy that always declines, yields two distinct node
identities, records both nodes in the same quantized bucket, and both
are retrievable from the store at the recorded indices. -/
theorem add_node_no_merge_distinct (tr : Translation) (st : OsmData)
    (x1 y1 x2 y2 : ℚ) (t1 t2 : Tags)
    (hmerge : ∀ kind a b, tr.merge_tags kind a b = none)
    (hqx : round_number st.rounding_digits x1 = round_number st.rounding_digits x2)
    (hqy : round_number st.rounding_digits y1 = round_number st.rounding_digits y2) :
    (add_node tr st x1 y1 t1 true).1.id ≠
      (add_node tr (add_node tr st x1 y1 t1 true).2 x2 y2 t2 true).1.id ∧
    ∃ bucket,
      lookupKey (NodeKey.way_member (round_number st.rounding_digits x1)
          (round_number st.rounding_digits y1))
        (add_node tr (add_node tr st x1 y1 t1 true).2 x2 y2 t2 true).2.unique_node_index
        = some bucket ∧
      st.nodes.length ∈ bucket ∧ st.nodes.length + 1 ∈ bucket ∧
      (add_node tr (add_node tr st x1 y1 t1 true).2 x2 y2 t2 true).2.nodes[st.nodes.length]? =
        some (add_node tr st x1 y1 t1 true).1 ∧
      (add_node tr (add_node tr st x1 y1 t1 true).2 x2 y2 t2 true).2.nodes[st.nodes.length + 1]?
        = some (add_node tr (add_node tr st x1 y1 t1 true).2 x2 y2 t2 true).1 := by
  have hm1 : ∀ a b, tr.merge_tags "node" a b = none := fun a b => hmerge "node" a b
  rw [add_node_nomerge tr st x1 y1 t1 hm1]
  rw [add_node_nomerge tr _ x2 y2 t2 hm1]
  simp only []
  rw [← hqx, ← hqy]
  refine ⟨by simp, ?_⟩
  refine ⟨((lookupKey (NodeKey.way_member (round_number st.rounding_digits x1)
      (round_number st.rounding_digits y1)) st.unique_node_index).getD [])
      ++ [st.nodes.length] ++ [st.nodes.length + 1], ?_, ?_, ?_, ?_, ?_⟩
  · rw [lookupKey_insertKey_self, lookupKey_insertKey_self]
    simp
  · simp
  · simp
  · rw [List.append_assoc st.nodes]
    rw [List.getElem?_append_right (by omega)]
    simp
  · rw [List.append_assoc st.nodes]
    rw [List.getElem?_append_right (by omega)]
    simp

theorem find_merge_node_cons_hit (tr : Translation) (nodes : List OsmPoint)
    (tags : Tags) (i0 : Nat) (rest : List Nat) (nd0 : OsmPoint) (m : Tags)
    (hnd : nodes[i0]? = some nd0)
    (hm : tr.merge_tags "node" nd0.tags tags = some m) :
    find_merge_node tr nodes tags (i0 :: rest) = some (i0, { nd0 with tags := m }) := by
  unfold find_merge_node
  split
  · rename_i nd heq
    rw [hnd] at heq
    obtain rfl : nd = nd0 := Option.some_inj.1 heq.symm
    rw [hm]
  · rename_i heq
    rw [hnd] at heq
    exact Option.noConfusion heq

/-- `__add_node` when the key's bucket exists and a candidate accepts the
merge: the candidate's tags are overwritten in place and it is
returned; no new node is created. -/
theorem add_node_merge_hit (tr : Translation) (st : OsmData) (x y : ℚ) (tags : Tags)
    (i0 : Nat) (rest : List Nat) (nd0 : OsmPoint) (m : Tags)
    (hlk : lookupKey (NodeKey.way_member (round_number st.rounding_digits x)
        (round_number st.rounding_digits y)) st.unique_node_index = some (i0 :: rest))
    (hnd : st.nodes[i0]? = some nd0)
    (hm : tr.merge_tags "node" nd0.tags tags = some m) :
    add_node tr st x y tags true =
      ({ nd0 with tags := m },
       { st with nodes := st.nodes.set i0 ({ nd0 with tags := m }) }) := by
  unfold add_node
  split
  · rename_i bucket heq
    rw [node_key_way_member, hlk] at heq
    obtain rfl : bucket = i0 :: rest := (Option.some_inj.1 heq).symm
    split
    · rename_i idx nd hfm
      rw [find_merge_node_cons_hit tr st.nodes tags i0 rest nd0 m hnd hm] at hfm
      simp only [Option.some_inj, Prod.mk.injEq] at hfm
      obtain ⟨rfl, rfl⟩ := hfm
      rfl
    · rename_i hfm
      rw [find_merge_node_cons_hit tr st.nodes tags i0 rest nd0 m hnd hm] at hfm
      exact Option.noConfusion hfm
  · rename_i heq
    rw [node_key_way_member, hlk] at heq
    exact Option.noConfusion heq

/-- `__add_node` when the bucket (if any) offers no accepted merge:
a fresh node is created and appended to the bucket. -/
theorem add_node_no_hit (tr : Translation) (st : OsmData) (x y : ℚ) (tags : Tags)
    (bucket : List Nat)
    (hlk : lookupKey (NodeKey.way_member (round_number st.rounding_digits x)
        (round_number st.rounding_digits y)) st.unique_node_index = some bucket)
    (hfm : find_merge_node tr st.nodes tags bucket = none) :
    add_node tr st x y tags true =
      (⟨st.next_id, x, y, tags, []⟩,
       { st with
         nodes := st.nodes ++ [⟨st.next_id, x, y, tags, []⟩],
         unique_node_index := insertKey
           (NodeKey.way_member (round_number st.rounding_digits x)
             (round_number st.rounding_digits y))
           (bucket ++ [st.nodes.length]) st.unique_node_index,
         next_id := st.next_id + 1 }) := by
  unfold add_node
  split
  · rename_i bucket1 heq
    rw [node_key_way_member, hlk] at heq
    obtain rfl : bucket1 = bucket := (Option.some_inj.1 heq).symm
    split
    · rename_i idx nd hfm1
      rw [hfm] at hfm1
      exact Option.noConfusion hfm1
    · rw [node_key_way_member]
  · rename_i heq
    rw [node_key_way_member, hlk] at heq
    exact Option.noConfusion heq

/-- `__add_node` when the key is unseen: a fresh node is created and a
new singleton bucket recorded. -/
theorem add_node_fresh_key (tr : Translation) (st : OsmData) (x y : ℚ) (tags : Tags)
    (hlk : lookupKey (NodeKey.way_member (round_number st.rounding_digits x)
        (round_number st.rounding_digits y)) st.unique_node_index = none) :
    add_node tr st x y tags true =
      (⟨st.next_id, x, y, tags, []⟩,
       { st with
         nodes := st.nodes ++ [⟨st.next_id, x, y, tags, []⟩],
         unique_node_index := insertKey
           (NodeKey.way_member (round_number st.rounding_digits x)
             (round_number st.rounding_digits y))
           [st.nodes.length] st.unique_node_index,
         next_id := st.next_id + 1 }) := by
  unfold add_node
  split
  · rename_i bucket heq
    rw [node_key_way_member, hlk] at heq
    exact Option.noConfusion heq
  · rw [node_key_way_member]

/-- C5: interning the same `(x, y, tags)` twice as a way-member node
under a merge policy that always accepts returns the same node identity
both times, creates no second node on the second call, and the returned
node's final tag map is the `merge_tags` result of the existing and
incoming tags.  (The well-formedness hypothesis — every index recorded
in a dedup bucket points into the node store — is an invariant of every
state the program constructs.) -/
theorem add_node_merge_idempotent (tr : Translation) (st : OsmData) (x y : ℚ)
    (tags : Tags)
    (hwf : ∀ kb ∈ st.unique_node_index, ∀ i ∈ kb.2, i < st.nodes.length)
    (hmerge : ∀ kind a b, (tr.merge_tags kind a b).isSome)
    (n1 n2 : OsmPoint) (st1 st2 : OsmData)
    (h1 : add_node tr st x y tags true = (n1, st1))
    (h2 : add_node tr st1 x y tags true = (n2, st2)) :
    n2.id = n1.id ∧ st2.nodes.length = st1.nodes.length ∧
      tr.merge_tags "node" n1.tags tags = some n2.tags := by
  cases hlk0 : lookupKey (NodeKey.way_member (round_number st.rounding_digits x)
      (round_number st.rounding_digits y)) st.unique_node_index with
  | none =>
    rw [add_node_fresh_key tr st x y tags hlk0] at h1
    simp only [Prod.mk.injEq] at h1
    obtain ⟨rfl, rfl⟩ := h1.symm.imp Eq.symm Eq.symm
    obtain ⟨m, hm⟩ := Option.isSome_iff_exists.1 (hmerge "node" tags tags)
    rw [add_node_merge_hit tr _ x y tags st.nodes.length [] ⟨st.next_id, x, y, tags, []⟩ m
      (by rw [lookupKey_insertKey_self]) (by rw [List.getElem?_concat_length]) hm] at h2
    simp only [Prod.mk.injEq] at h2
    obtain ⟨rfl, rfl⟩ := h2.symm.imp Eq.symm Eq.symm
    exact ⟨rfl, by simp, hm⟩
  | some bucket =>
    cases bucket with
    | nil =>
      rw [add_node_no_hit tr st x y tags [] hlk0 rfl] at h1
      simp only [Prod.mk.injEq] at h1
      obtain ⟨rfl, rfl⟩ := h1.symm.imp Eq.symm Eq.symm
      obtain ⟨m, hm⟩ := Option.isSome_iff_exists.1 (hmerge "node" tags tags)
      rw [add_node_merge_hit tr _ x y tags st.nodes.length [] ⟨st.next_id, x, y, tags, []⟩ m
        (by rw [lookupKey_insertKey_self]; simp)
        (by rw [List.getElem?_concat_length]) hm] at h2
      simp only [Prod.mk.injEq] at h2
      obtain ⟨rfl, rfl⟩ := h2.symm.imp Eq.symm Eq.symm
      exact ⟨rfl, by simp, hm⟩
    | cons i0 rest =>
      have hi0 : i0 < st.nodes.length :=
        hwf _ (lookupKey_mem _ _ _ hlk0) i0 (List.mem_cons_self _ _)
      have hnd0 : st.nodes[i0]? = some st.nodes[i0] := List.getElem?_eq_getElem hi0
      obtain ⟨m1, hm1⟩ := Option.isSome_iff_exists.1 (hmerge "node" st.nodes[i0].tags tags)
      rw [add_node_merge_hit tr st x y tags i0 rest st.nodes[i0] m1 hlk0 hnd0 hm1] at h1
      simp only [Prod.mk.injEq] at h1
      obtain ⟨rfl, rfl⟩ := h1.symm.imp Eq.symm Eq.symm
      obtain ⟨m2, hm2⟩ := Option.isSome_iff_exists.1 (hmerge "node" m1 tags)
      rw [add_node_merge_hit tr
        ({ st with nodes := st.nodes.set i0 (OsmPoint.mk st.nodes[i0].id st.nodes[i0].x st.nodes[i0].y m1 st.nodes[i0].parents) })
        x y tags i0 rest
        (OsmPoint.mk st.nodes[i0].id st.nodes[i0].x st.nodes[i0].y m1 st.nodes[i0].parents) m2
        (by simpa using hlk0)
        (by simpa using @List.getElem?_set_self _ st.nodes i0 (OsmPoint.mk st.nodes[i0].id st.nodes[i0].x st.nodes[i0].y m1 st.nodes[i0].parents) hi0)
        hm2] at h2
      simp only [Prod.mk.injEq] at h2
      obtain ⟨rfl, rfl⟩ := h2.symm.imp Eq.symm Eq.symm
      exact ⟨rfl, by simp, hm2⟩

/-- Witness for C5: interning `(1, 2)` twice into the empty store under
a policy that merges by taking the incoming tags returns the same id. -/
theorem add_node_merge_idempotent_witness :
    (add_node ⟨fun _ _ b => some b, fun _ _ _ => NodeKey.custom 0⟩
        (add_node ⟨fun _ _ b => some b, fun _ _ _ => NodeKey.custom 0⟩
          (OsmData.mk 0 1800 [] [] [] [] 0 []) 1 2 [("k", "v")] true).2
        1 2 [("k", "v")] true).1.id =
      (add_node ⟨fun _ _ b => some b, fun _ _ _ => NodeKey.custom 0⟩
        (OsmData.mk 0 1800 [] [] [] [] 0 []) 1 2 [("k", "v")] true).1.id :=
  (add_node_merge_idempotent ⟨fun _ _ b => some b, fun _ _ _ => NodeKey.custom 0⟩
    (OsmData.mk 0 1800 [] [] [] [] 0 []) 1 2 [("k", "v")]
    (by simp) (fun _ _ _ => rfl)
    (add_node ⟨fun _ _ b => some b, fun _ _ _ => NodeKey.custom 0⟩
      (OsmData.mk 0 1800 [] [] [] [] 0 []) 1 2 [("k", "v")] true).1
    (add_node ⟨fun _ _ b => some b, fun _ _ _ => NodeKey.custom 0⟩
      (add_node ⟨fun _ _ b => some b, fun _ _ _ => NodeKey.custom 0⟩
        (OsmData.mk 0 1800 [] [] [] [] 0 []) 1 2 [("k", "v")] true).2
      1 2 [("k", "v")] true).1
    (add_node ⟨fun _ _ b => some b, fun _ _ _ => NodeKey.custom 0⟩
      (OsmData.mk 0 1800 [] [] [] [] 0 []) 1 2 [("k", "v")] true).2
    (add_node ⟨fun _ _ b => some b, fun _ _ _ => NodeKey.custom 0⟩
      (add_node ⟨fun _ _ b => some b, fun _ _ _ => NodeKey.custom 0⟩
        (OsmData.mk 0 1800 [] [] [] [] 0 []) 1 2 [("k", "v")] true).2
      1 2 [("k", "v")] true).2
    rfl rfl).1

/-- Witness for C4: two distinct-tag nodes at the same coordinates under
the never-merge policy get distinct identities. -/
theorem add_node_no_merge_distinct_witness :
    (add_node ⟨fun _ _ _ => none, fun rx ry _ => NodeKey.custom (rx + ry).toNat⟩
        (OsmData.mk 0 1800 [] [] [] [] 0 []) 1 2 [("a", "1")] true).1.id ≠
      (add_node ⟨fun _ _ _ => none, fun rx ry _ => NodeKey.custom (rx + ry).toNat⟩
        ((add_node ⟨fun _ _ _ => none, fun rx ry _ => NodeKey.custom (rx + ry).toNat⟩
          (OsmData.mk 0 1800 [] [] [] [] 0 []) 1 2 [("a", "1")] true).2)
        1 2 [("b", "2")] true).1.id :=
  (add_node_no_merge_distinct
    ⟨fun _ _ _ => none, fun rx ry _ => NodeKey.custom (rx + ry).toNat⟩
    (OsmData.mk 0 1800 [] [] [] [] 0 []) 1 2 1 2 [("a", "1")] [("b", "2")]
    (fun _ _ _ => rfl) rfl rfl).1

/-! ## Claim C6: relation duplicate detection is order-sensitive -/

theorem verify_duplicate_relations_eq_filter (rels : List OsmRelation)
    (members : List (Member × String)) :
    verify_duplicate_relations rels members =
      rels.filter (fun r => decide (r.members = members)) := by
  unfold verify_duplicate_relations
  suffices h : ∀ acc, rels.foldl
      (fun acc duprelation =>
        if duprelation.members = members then acc ++ [duprelation] else acc) acc =
      acc ++ rels.filter (fun r => decide (r.members = members)) by
    simpa using h []
  induction rels with
  | nil => simp
  | cons r rs ih =>
    intro acc
    by_cases h : r.members = members <;>
      simp [List.foldl_cons, h, ih, List.filter_cons]

/-- C6: `__verify_duplicate_relations` compares ordered `(member, role)`
lists for exact equality: a relation is reported as a duplicate iff its
member list equals the new list exactly; in particular two relations
whose member lists hold the same pairs in swapped order, such as
`[(A,"outer"),(B,"inner")]` versus `[(B,"inner"),(A,"outer")]` with
`A ≠ B`, are not reported as duplicates. -/
theorem verify_duplicate_relations_order_sensitive :
    (∀ (rels : List OsmRelation) (members : List (Member × String)) (r : OsmRelation),
        r ∈ verify_duplicate_relations rels members ↔ (r ∈ rels ∧ r.members = members)) ∧
    (∀ (rel : OsmRelation) (A B : Member) (rA rB : String), A ≠ B →
        rel.members = [(B, rB), (A, rA)] →
        verify_duplicate_relations [rel] [(A, rA), (B, rB)] = []) := by
  constructor
  · intro rels members r
    rw [verify_duplicate_relations_eq_filter, List.mem_filter]
    simp
  · intro rel A B rA rB hAB hmem
    rw [verify_duplicate_relations_eq_filter]
    simp only [List.filter_eq_nil_iff]
    intro r hr
    simp only [List.mem_singleton] at hr
    subst hr
    rw [hmem]
    simp only [decide_eq_true_eq]
    intro hcontra
    simp only [List.cons.injEq, Prod.mk.injEq] at hcontra
    exact hAB hcontra.1.1.symm

/-- Witness for C6: the spec's example pair, instantiated with two
distinct ways as members. -/
theorem verify_duplicate_relations_order_sensitive_witness :
    verify_duplicate_relations
      [⟨5, ([] : List (String × String)),
        [(Member.way 2, "inner"), (Member.way 1, "outer")], []⟩]
      [(Member.way 1, "outer"), (Member.way 2, "inner")] = [] :=
  verify_duplicate_relations_order_sensitive.2 _ (Member.way 1) (Member.way 2)
    "outer" "inner" (by decide) rfl

/-! ## Canonicalization of closed rings (`__get_ordered_nodes`) -/

/-- Close an interior node sequence into a ring: append a copy of its
first node (`[n0, …, nk] ↦ [n0, …, nk, n0]`). -/
def closeRing (c : List Nat) : List Nat := c ++ c.take 1

theorem foldl_lowest_spec (ps : List (Nat × Nat)) (acc : Nat × Nat) :
    (ps.foldl lowest_step acc = acc ∨
      (ps.foldl lowest_step acc ∈ ps ∧ (ps.foldl lowest_step acc).2 < acc.2)) ∧
    ∀ p ∈ ps, (ps.foldl lowest_step acc).2 ≤ p.2 := by
  induction ps generalizing acc with
  | nil => exact ⟨Or.inl rfl, by simp⟩
  | cons q qs ih =>
    rw [List.foldl_cons]
    obtain ⟨h1, h2⟩ := ih (lowest_step acc q)
    by_cases hq : q.2 < acc.2
    · have hstep : lowest_step acc q = q := by unfold lowest_step; rw [if_pos hq]
      rw [hstep] at h1 h2 ⊢
      constructor
      · right
        rcases h1 with h1 | ⟨hmem, hlt⟩
        · exact ⟨by rw [h1]; exact List.mem_cons_self _ _, by rw [h1]; exact hq⟩
        · exact ⟨List.mem_cons_of_mem _ hmem, hlt.trans hq⟩
      · intro p hp
        rcases List.mem_cons.1 hp with rfl | hp
        · rcases h1 with h1 | ⟨_, hlt⟩
          · rw [h1]
          · exact hlt.le
        · exact h2 p hp
    · have hstep : lowest_step acc q = acc := by unfold lowest_step; rw [if_neg hq]
      rw [hstep] at h1 h2 ⊢
      constructor
      · rcases h1 with h1 | ⟨hmem, hlt⟩
        · exact Or.inl h1
        · exact Or.inr ⟨List.mem_cons_of_mem _ hmem, hlt⟩
      · intro p hp
        rcases List.mem_cons.1 hp with rfl | hp
        · rcases h1 with h1 | ⟨_, hlt⟩
          · rw [h1]; omega
          · omega
        · exact h2 p hp

theorem lowest_pair_cons_spec (n0 : Nat) (rest : List Nat) :
    (lowest_pair (n0 :: rest)).1 < (n0 :: rest).length ∧
    (n0 :: rest)[(lowest_pair (n0 :: rest)).1]? = some (lowest_pair (n0 :: rest)).2 ∧
    (∀ x ∈ n0 :: rest, (lowest_pair (n0 :: rest)).2 ≤ x) ∧
    (lowest_pair (n0 :: rest) = (0, n0) ∨ (lowest_pair (n0 :: rest)).2 < n0) := by
  obtain ⟨h1, h2⟩ := foldl_lowest_spec (List.enumFrom 1 rest) (0, n0)
  have hlp : lowest_pair (n0 :: rest) = (List.enumFrom 1 rest).foldl lowest_step (0, n0) :=
    rfl
  rw [← hlp] at h1 h2
  have hget : (n0 :: rest)[(lowest_pair (n0 :: rest)).1]? =
      some (lowest_pair (n0 :: rest)).2 := by
    rcases h1 with h1 | ⟨hmem, _⟩
    · rw [h1]
      simp
    · have hm := List.mk_mem_enumFrom_iff_le_and_getElem?_sub.1 (by
        have hpair : ((lowest_pair (n0 :: rest)).1, (lowest_pair (n0 :: rest)).2) =
            lowest_pair (n0 :: rest) := rfl
        rw [hpair]
        exact hmem)
      obtain ⟨hge, hrest⟩ := hm
      obtain ⟨j, hj⟩ : ∃ j, (lowest_pair (n0 :: rest)).1 = j + 1 :=
        ⟨(lowest_pair (n0 :: rest)).1 - 1, by omega⟩
      rw [hj]
      rw [List.getElem?_cons_succ]
      rw [hj] at hrest
      simpa using hrest
  have hltl : (lowest_pair (n0 :: rest)).1 < (n0 :: rest).length := by
    obtain ⟨hb, _⟩ := List.getElem?_eq_some.1 hget
    exact hb
  refine ⟨hltl, hget, ?_, ?_⟩
  · intro x hx
    rcases List.mem_cons.1 hx with rfl | hx
    · rcases h1 with h1 | ⟨_, hlt⟩
      · rw [h1]
      · exact hlt.le
    · obtain ⟨j, hj⟩ := List.mem_iff_getElem?.1 hx
      have : (1 + j, x) ∈ List.enumFrom 1 rest :=
        List.mk_add_mem_enumFrom_iff_getElem?.2 hj
      exact h2 _ this
  · rcases h1 with h1 | ⟨_, hlt⟩
    · left
      rw [h1]
    · right
      exact hlt

/-- The canonical form of a closed ring: rotate the interior to start at
the first occurrence of the lowest node id, then close with a copy of
that lowest id.  (The canonical form keeps the length of the ring: the
original closing node is dropped but the new start is repeated at the
end.) -/
theorem get_ordered_nodes_closeRing (cyc : List Nat) (h2 : 2 ≤ cyc.length) :
    get_ordered_nodes (closeRing cyc) =
      cyc.rotate (lowest_pair (closeRing cyc)).1 ++ [(lowest_pair (closeRing cyc)).2] ∧
    (lowest_pair (closeRing cyc)).1 < cyc.length ∧
    cyc[(lowest_pair (closeRing cyc)).1]? = some (lowest_pair (closeRing cyc)).2 ∧
    (∀ x ∈ cyc, (lowest_pair (closeRing cyc)).2 ≤ x) := by
  obtain ⟨n0, t, rfl⟩ : ∃ n0 t, cyc = n0 :: t := by
    cases cyc with
    | nil => simp at h2
    | cons a b => exact ⟨a, b, rfl⟩
  have hclose : closeRing (n0 :: t) = n0 :: (t ++ [n0]) := by
    simp [closeRing]
  obtain ⟨hlt, hget, hmin, hzero⟩ := lowest_pair_cons_spec n0 (t ++ [n0])
  rw [← hclose] at hlt hget hmin hzero
  generalize hLP : lowest_pair (closeRing (n0 :: t)) = LP at hlt hget hmin hzero ⊢
  obtain ⟨li, m⟩ := LP
  simp only at hlt hget hmin hzero ⊢
  have hlen2 : (closeRing (n0 :: t)).length = t.length + 2 := by
    rw [hclose]
    simp
  have hlic : li < (n0 :: t).length := by
    rcases Nat.lt_or_ge li (t.length + 1) with h | h
    · simpa using h
    · exfalso
      have hli_eq : li = t.length + 1 := by
        rw [hclose] at hlt
        simp at hlt
        omega
      have hclosing : (closeRing (n0 :: t))[li]? = some n0 := by
        rw [hclose, hli_eq]
        rw [show (n0 :: (t ++ [n0]))[t.length + 1]? = (t ++ [n0])[t.length]? from
          List.getElem?_cons_succ]
        rw [List.getElem?_concat_length]
      rcases hzero with hz | hz
      · have hz0 : li = 0 := by
          have := congrArg Prod.fst hz
          simpa using this
        omega
      · rw [hget] at hclosing
        have := Option.some_inj.1 hclosing
        omega
  have hgetc : (n0 :: t)[li]? = some m := by
    rw [hclose] at hget
    rcases Nat.eq_zero_or_pos li with h0 | h0
    · rw [h0] at hget ⊢
      simpa using hget
    · obtain ⟨j, rfl⟩ : ∃ j, li = j + 1 := ⟨li - 1, by omega⟩
      rw [List.getElem?_cons_succ] at hget ⊢
      have hjt : j < t.length := by simpa using hlic
      rw [List.getElem?_append_left hjt] at hget
      exact hget
  have hminc : ∀ x ∈ n0 :: t, m ≤ x := by
    intro x hx
    refine hmin x ?_
    rw [hclose]
    rcases List.mem_cons.1 hx with rfl | hx
    · exact List.mem_cons_self _ _
    · exact List.mem_cons_of_mem _ (List.mem_append_left _ hx)
  refine ⟨?_, hlic, hgetc, hminc⟩
  have hcond : 2 < (closeRing (n0 :: t)).length ∧
      (closeRing (n0 :: t)).head? = (closeRing (n0 :: t)).getLast? := by
    constructor
    · rw [hlen2]
      have h2x : 1 ≤ t.length := by
        simp only [List.length_cons] at h2
        omega
      omega
    · rw [hclose]
      rw [show n0 :: (t ++ [n0]) = (n0 :: t) ++ [n0] from rfl]
      rw [List.getLast?_concat]
      rfl
  unfold get_ordered_nodes
  rw [if_pos hcond]
  rw [hLP]
  have hdrop : (closeRing (n0 :: t)).drop li = (n0 :: t).drop li ++ [n0] := by
    show ((n0 :: t) ++ (n0 :: t).take 1).drop li = _
    rw [List.drop_append_eq_append_drop]
    have hz : li - (n0 :: t).length = 0 := by omega
    rw [hz]
    rfl
  have htake : (closeRing (n0 :: t)).take (li + 1) = (n0 :: t).take (li + 1) := by
    show ((n0 :: t) ++ (n0 :: t).take 1).take (li + 1) = _
    rw [List.take_append_eq_append_take]
    have hz : li + 1 - (n0 :: t).length = 0 := by omega
    rw [hz]
    simp
  simp only
  rw [hdrop, List.dropLast_concat, htake, List.take_succ, hgetc]
  rw [List.rotate_eq_drop_append_take (by omega : li ≤ (n0 :: t).length)]
  simp

/-- Two rotations of a duplicate-free list with the same head are equal. -/
theorem rotated_nodup_head_eq (x y : List Nat) (h : x ~r y) (hnd : y.Nodup)
    (hh : x.head? = y.head?) : x = y := by
  obtain ⟨n, rfl⟩ := h.symm
  rcases eq_or_ne y [] with rfl | hne
  · simp
  · have hpos : 0 < y.length := List.length_pos.2 hne
    have h0 : (y.rotate n).head? = y[n % y.length]? := by
      rw [List.head?_eq_getElem?, List.getElem?_rotate hpos]
      simp
    rw [h0, List.head?_eq_getElem? y] at hh
    have hmod : n % y.length = 0 := List.getElem?_inj (Nat.mod_lt n hpos) hnd hh
    rw [← List.rotate_mod, hmod, List.rotate_zero]

theorem min_mem_of_getElem? {cyc : List Nat} {li : Nat} {m : Nat}
    (h : cyc[li]? = some m) : m ∈ cyc := List.getElem?_mem h

/-- Rotating the interior of a duplicate-free ring does not change the
canonical form `__get_ordered_nodes` computes for the closed ring. -/
theorem get_ordered_nodes_ring_rotate (cyc : List Nat) (hnd : cyc.Nodup)
    (h2 : 2 ≤ cyc.length) (k : Nat) :
    get_ordered_nodes (closeRing (cyc.rotate k)) = get_ordered_nodes (closeRing cyc) := by
  obtain ⟨hres, hlt, hget, hmin⟩ := get_ordered_nodes_closeRing cyc h2
  obtain ⟨hres2, hlt2, hget2, hmin2⟩ := get_ordered_nodes_closeRing (cyc.rotate k)
    (by rw [List.length_rotate]; exact h2)
  set li := (lowest_pair (closeRing cyc)).1
  set m := (lowest_pair (closeRing cyc)).2
  set li2 := (lowest_pair (closeRing (cyc.rotate k))).1
  set m2 := (lowest_pair (closeRing (cyc.rotate k))).2
  have hmm : m2 = m := by
    have hm_mem : m ∈ cyc := min_mem_of_getElem? hget
    have hm2_mem : m2 ∈ cyc := by
      have := min_mem_of_getElem? hget2
      exact List.mem_rotate.1 this
    have h1 : m ≤ m2 := hmin m2 hm2_mem
    have h2' : m2 ≤ m := hmin2 m (List.mem_rotate.2 hm_mem)
    omega
  rw [hres, hres2, hmm]
  have hrot : (cyc.rotate k).rotate li2 = cyc.rotate li := by
    rw [List.rotate_rotate]
    have hgk : cyc[(li2 + k) % cyc.length]? = some m := by
      have := hget2
      rw [List.getElem?_rotate (by simpa using hlt2)] at this
      rw [hmm] at this
      simpa using this
    have hgl : cyc[li]? = some m := hget
    have heq : (li2 + k) % cyc.length = li := by
      refine List.getElem?_inj ?_ hnd ?_
      · exact Nat.mod_lt _ (by omega)
      · rw [hgk, hgl]
    calc cyc.rotate (k + li2) = cyc.rotate ((k + li2) % cyc.length) := by rw [List.rotate_mod]
      _ = cyc.rotate ((li2 + k) % cyc.length) := by rw [Nat.add_comm]
      _ = cyc.rotate li := by rw [heq]
  rw [hrot]

theorem closeRing_length (cyc : List Nat) (h : cyc ≠ []) :
    (closeRing cyc).length = cyc.length + 1 := by
  have hpos : 0 < cyc.length := List.length_pos.2 h
  unfold closeRing
  rw [List.length_append, List.length_take]
  omega

/-- Reversing a duplicate-free ring of at least 3 nodes yields the
reversed canonical form, which differs from the forward canonical form. -/
theorem get_ordered_nodes_ring_reverse (cyc : List Nat) (hnd : cyc.Nodup)
    (h3 : 3 ≤ cyc.length) :
    get_ordered_nodes ((closeRing cyc).reverse) =
      (get_ordered_nodes (closeRing cyc)).reverse ∧
    get_ordered_nodes ((closeRing cyc).reverse) ≠ get_ordered_nodes (closeRing cyc) := by
  obtain ⟨n0, t, rfl⟩ : ∃ n0 t, cyc = n0 :: t := by
    cases cyc with
    | nil => simp at h3
    | cons a b => exact ⟨a, b, rfl⟩
  have h2 : 2 ≤ (n0 :: t).length := by
    simp only [List.length_cons] at h3 ⊢
    omega
  have hrevclose : (closeRing (n0 :: t)).reverse = closeRing (n0 :: t.reverse) := by
    simp [closeRing]
  have hperm : (n0 :: t.reverse).Perm (n0 :: t) := List.Perm.cons n0 t.reverse_perm
  have hnd2 : (n0 :: t.reverse).Nodup := hperm.nodup_iff.2 hnd
  have hlen2 : (n0 :: t.reverse).length = (n0 :: t).length := by simp
  obtain ⟨hres, hlt, hget, hmin⟩ := get_ordered_nodes_closeRing (n0 :: t) h2
  obtain ⟨hres2, hlt2, hget2, hmin2⟩ :=
    get_ordered_nodes_closeRing (n0 :: t.reverse) (by rw [hlen2]; exact h2)
  have hmm : (lowest_pair (closeRing (n0 :: t.reverse))).2 =
      (lowest_pair (closeRing (n0 :: t))).2 := by
    have hm_mem : (lowest_pair (closeRing (n0 :: t))).2 ∈ n0 :: t :=
      min_mem_of_getElem? hget
    have hm2_mem : (lowest_pair (closeRing (n0 :: t.reverse))).2 ∈ n0 :: t.reverse :=
      min_mem_of_getElem? hget2
    have ha : (lowest_pair (closeRing (n0 :: t))).2 ≤
        (lowest_pair (closeRing (n0 :: t.reverse))).2 :=
      hmin _ (hperm.mem_iff.1 hm2_mem)
    have hb : (lowest_pair (closeRing (n0 :: t.reverse))).2 ≤
        (lowest_pair (closeRing (n0 :: t))).2 :=
      hmin2 _ (hperm.mem_iff.2 hm_mem)
    omega
  -- decompose the canonical rotation of the forward ring
  have hheadA : ((n0 :: t).rotate (lowest_pair (closeRing (n0 :: t))).1).head? =
      some (lowest_pair (closeRing (n0 :: t))).2 := by
    rw [List.head?_eq_getElem?, List.getElem?_rotate (by simp)]
    have hz : (0 + (lowest_pair (closeRing (n0 :: t))).1) % (n0 :: t).length =
        (lowest_pair (closeRing (n0 :: t))).1 := by
      rw [Nat.zero_add]
      exact Nat.mod_eq_of_lt hlt
    rw [hz]
    exact hget
  obtain ⟨u, hu⟩ : ∃ u, (n0 :: t).rotate (lowest_pair (closeRing (n0 :: t))).1 =
      (lowest_pair (closeRing (n0 :: t))).2 :: u := by
    cases hA : (n0 :: t).rotate (lowest_pair (closeRing (n0 :: t))).1 with
    | nil =>
      exfalso
      have := congrArg List.length hA
      simp at this
    | cons a u =>
      have ha : a = (lowest_pair (closeRing (n0 :: t))).2 := by
        rw [hA] at hheadA
        simpa using hheadA
      refine ⟨u, ?_⟩
      rw [ha]

  have hAnd : ((lowest_pair (closeRing (n0 :: t))).2 :: u).Nodup := by
    rw [← hu]
    exact List.nodup_rotate.2 hnd
  have hulen : u.length = t.length := by
    have := congrArg List.length hu
    simp at this
    omega
  -- the canonical rotation of the reversed ring is the reversed rotation
  have hkey : (n0 :: t.reverse).rotate (lowest_pair (closeRing (n0 :: t.reverse))).1 =
      (lowest_pair (closeRing (n0 :: t))).2 :: u.reverse := by
    refine rotated_nodup_head_eq _ _ ?_ ?_ ?_
    · -- both are rotations of the reversed interior
      have hx1 : (n0 :: t.reverse).rotate
          (lowest_pair (closeRing (n0 :: t.reverse))).1 ~r (n0 :: t.reverse) :=
        List.IsRotated.forall _ _
      have hx2 : (n0 :: t).reverse ~r (n0 :: t.reverse) := by
        refine ⟨t.reverse.length, ?_⟩
        rw [List.reverse_cons]
        exact List.rotate_append_length_eq t.reverse [n0]
      have hx3 : ((n0 :: t).rotate (lowest_pair (closeRing (n0 :: t))).1).reverse ~r
          (n0 :: t).reverse :=
        List.IsRotated.reverse (List.IsRotated.forall _ _)
      have hx4 : ((n0 :: t).rotate (lowest_pair (closeRing (n0 :: t))).1).reverse ~r
          ((lowest_pair (closeRing (n0 :: t))).2 :: u.reverse) := by
        rw [hu, List.reverse_cons]
        exact ⟨u.reverse.length, List.rotate_append_length_eq u.reverse _⟩
      exact hx1.trans (hx2.symm.trans (hx3.symm.trans hx4))
    · -- the target is duplicate-free
      have : ((lowest_pair (closeRing (n0 :: t))).2 :: u.reverse).Perm
          ((lowest_pair (closeRing (n0 :: t))).2 :: u) :=
        List.Perm.cons _ u.reverse_perm
      exact this.nodup_iff.2 hAnd
    · -- both start at the common minimum
      rw [List.head?_eq_getElem?, List.getElem?_rotate (by simp)]
      have hz : (0 + (lowest_pair (closeRing (n0 :: t.reverse))).1) %
          (n0 :: t.reverse).length = (lowest_pair (closeRing (n0 :: t.reverse))).1 := by
        rw [Nat.zero_add]
        exact Nat.mod_eq_of_lt hlt2
      rw [hz, hget2, hmm]
      rfl
  constructor
  · rw [hrevclose, hres2, hres, hmm, hkey, hu]
    simp
  · rw [hrevclose, hres2, hres, hmm, hkey, hu]
    intro hcontra
    have hcu : u.reverse = u := by
      have h1 := List.append_inj_left hcontra (by simp)
      simpa using h1
    have hund : u.Nodup := (List.nodup_cons.1 hAnd).2
    have hupos : 2 ≤ u.length := by
      simp only [List.length_cons] at h3
      omega
    have h0 : u[0]? = u[u.length - 1 - 0]? := by
      conv_lhs => rw [← hcu]
      exact List.getElem?_reverse (by omega)
    have := List.getElem?_inj (by omega) hund h0
    omega

/-- One candidate way whose canonical node sequence coincides with the
new sequence's canonical form is reported with role `"way"`. -/
theorem verify_duplicate_ways_singleton_way (w : OsmWay) (nodes : List Nat)
    (hlen : w.nodes.length = nodes.length)
    (heq : get_ordered_nodes w.nodes = get_ordered_nodes nodes) :
    verify_duplicate_ways [w] nodes = [(w, "way")] := by
  unfold verify_duplicate_ways
  simp [hlen, heq]

/-- One candidate way whose canonical node sequence is the reverse of the
new sequence's canonical form (and differs from the forward form) is
reported with role `"reverse_way"`. -/
theorem verify_duplicate_ways_singleton_reverse (w : OsmWay) (nodes : List Nat)
    (hlen : w.nodes.length = nodes.length)
    (hne : get_ordered_nodes w.nodes ≠ get_ordered_nodes nodes)
    (hrev : get_ordered_nodes w.nodes = (get_ordered_nodes nodes).reverse) :
    verify_duplicate_ways [w] nodes = [(w, "reverse_way")] := by
  have hne2 : ¬ (get_ordered_nodes nodes).reverse = get_ordered_nodes nodes := by
    rw [← hrev]
    exact hne
  unfold verify_duplicate_ways
  simp [hlen, hne2, hrev]

/-! ## Claim C2: duplicate detection under rotation and reversal -/

/-- Counterexample to C2 as stated: the closed sequence `[1, 1, 2, 1]`
(closure of the interior `[1, 1, 2]`, which repeats the id 1) and its
rotation `[1, 2, 1, 1]` (closure of the rotated interior) canonicalize
to different representatives, and the duplicate check reports the pair
with role `"reverse_way"`, not `"way"`. -/
theorem ring_rotation_duplicate_cex :
    ([1, 1, 2, 1] : List Nat) = closeRing [1, 1, 2] ∧
    ([1, 2, 1, 1] : List Nat) = closeRing (([1, 1, 2] : List Nat).rotate 1) ∧
    get_ordered_nodes [1, 2, 1, 1] ≠ get_ordered_nodes [1, 1, 2, 1] ∧
    verify_duplicate_ways [⟨9, ([] : List (String × String)), [1, 2, 1, 1], []⟩]
        [1, 1, 2, 1] =
      [(⟨9, ([] : List (String × String)), [1, 2, 1, 1], []⟩, "reverse_way")] ∧
    verify_duplicate_ways [⟨9, ([] : List (String × String)), [1, 2, 1, 1], []⟩]
        [1, 1, 2, 1] ≠
      [(⟨9, ([] : List (String × String)), [1, 2, 1, 1], []⟩, "way")] := by
  refine ⟨by decide, by decide, by decide, by decide, by decide⟩

/-- C2 (amended: the claim holds when the ring's interior node
identities are pairwise distinct; the `"reverse_way"` part additionally
needs a ring of at least 3 distinct nodes): a closed sequence and any of
its rotations canonicalize to the same representative and are reported
as duplicates with role `"way"`; reversing the rotated copy yields role
`"reverse_way"`. -/
theorem ring_rotation_duplicate_check (cyc : List Nat) (k : Nat) (hnd : cyc.Nodup)
    (h2 : 2 ≤ cyc.length) (w wrev : OsmWay)
    (hw : w.nodes = closeRing (cyc.rotate k))
    (hwrev : wrev.nodes = (closeRing (cyc.rotate k)).reverse) :
    get_ordered_nodes (closeRing (cyc.rotate k)) = get_ordered_nodes (closeRing cyc) ∧
    verify_duplicate_ways [w] (closeRing cyc) = [(w, "way")] ∧
    (3 ≤ cyc.length →
      verify_duplicate_ways [wrev] (closeRing cyc) = [(wrev, "reverse_way")]) := by
  have hrot := get_ordered_nodes_ring_rotate cyc hnd h2 k
  have hcne : cyc ≠ [] := by
    intro hcontra
    rw [hcontra] at h2
    simp at h2
  have hrne : cyc.rotate k ≠ [] := by
    intro hcontra
    rw [List.rotate_eq_nil_iff] at hcontra
    exact hcne hcontra
  have hlen : (closeRing (cyc.rotate k)).length = (closeRing cyc).length := by
    rw [closeRing_length _ hrne, closeRing_length _ hcne, List.length_rotate]
  refine ⟨hrot, ?_, ?_⟩
  · refine verify_duplicate_ways_singleton_way w (closeRing cyc) ?_ ?_
    · rw [hw]
      exact hlen
    · rw [hw]
      exact hrot
  · intro h3
    obtain ⟨hrev_eq, hrev_ne⟩ := get_ordered_nodes_ring_reverse (cyc.rotate k)
      (List.nodup_rotate.2 hnd) (by rw [List.length_rotate]; exact h3)
    refine verify_duplicate_ways_singleton_reverse wrev (closeRing cyc) ?_ ?_ ?_
    · rw [hwrev, List.length_reverse]
      exact hlen
    · rw [hwrev, ← hrot]
      exact hrev_ne
    · rw [hwrev, hrev_eq, hrot]

/-- Witness for C2 at the ring `10 → 11 → 12 → 10` rotated by one. -/
theorem ring_rotation_duplicate_check_witness :
    get_ordered_nodes (closeRing (([10, 11, 12] : List Nat).rotate 1)) =
      get_ordered_nodes (closeRing [10, 11, 12]) ∧
    verify_duplicate_ways
        [⟨7, ([] : List (String × String)),
          closeRing (([10, 11, 12] : List Nat).rotate 1), []⟩]
        (closeRing [10, 11, 12]) =
      [(⟨7, ([] : List (String × String)),
          closeRing (([10, 11, 12] : List Nat).rotate 1), []⟩, "way")] ∧
    (3 ≤ ([10, 11, 12] : List Nat).length →
      verify_duplicate_ways
          [⟨8, ([] : List (String × String)),
            (closeRing (([10, 11, 12] : List Nat).rotate 1)).reverse, []⟩]
          (closeRing [10, 11, 12]) =
        [(⟨8, ([] : List (String × String)),
            (closeRing (([10, 11, 12] : List Nat).rotate 1)).reverse, []⟩,
          "reverse_way")]) :=
  ring_rotation_duplicate_check [10, 11, 12] 1 (by decide) (by decide)
    ⟨7, ([] : List (String × String)),
      closeRing (([10, 11, 12] : List Nat).rotate 1), []⟩
    ⟨8, ([] : List (String × String)),
      (closeRing (([10, 11, 12] : List Nat).rotate 1)).reverse, []⟩
    rfl rfl

/-! ## Claim C3: structure of the canonical form -/

/-- Counterexample to C3 as stated: the canonical form of the closed
sequence `[0, 1, 2, 0]` is `[0, 1, 2, 0]` itself — the same length as
the input, not one element shorter. -/
theorem get_ordered_nodes_length_cex :
    get_ordered_nodes [0, 1, 2, 0] = [0, 1, 2, 0] ∧
      (get_ordered_nodes [0, 1, 2, 0]).length ≠ ([0, 1, 2, 0] : List Nat).length - 1 := by
  refine ⟨by decide, by decide⟩

/-- C3 (amended: the canonical form of a closed sequence starts at the
lowest node identity and keeps the input's length, ending with a fresh
copy of that lowest identity — the original closing node is dropped but
a new closing node is appended; open sequences are returned
unchanged). -/
theorem get_ordered_nodes_canonical_spec :
    (∀ l : List Nat, 2 < l.length → l.head? = l.getLast? →
      ∃ m, m ∈ l ∧ (∀ x ∈ l, m ≤ x) ∧
        (get_ordered_nodes l).head? = some m ∧
        (get_ordered_nodes l).getLast? = some m ∧
        (get_ordered_nodes l).length = l.length) ∧
    (∀ l : List Nat, ¬ (2 < l.length ∧ l.head? = l.getLast?) →
      get_ordered_nodes l = l) := by
  constructor
  · intro l hlen hcl
    have hne : l ≠ [] := by
      intro h
      rw [h] at hlen
      simp at hlen
    obtain ⟨a, b, rest, rfl⟩ : ∃ a b rest, l = a :: b :: rest := by
      cases l with
      | nil => simp at hlen
      | cons a l1 =>
        cases l1 with
        | nil => simp at hlen
        | cons b rest => exact ⟨a, b, rest, rfl⟩
    have hdl2 : 2 ≤ (a :: b :: rest).dropLast.length := by
      rw [List.length_dropLast]
      simp only [List.length_cons] at hlen ⊢
      omega
    have hhead_dl : (a :: b :: rest).dropLast.head? = some a := by
      rw [List.dropLast_cons₂]
      rfl
    have hC : a :: b :: rest = closeRing (a :: b :: rest).dropLast := by
      unfold closeRing
      rw [List.take_one, hhead_dl]
      have hlast : (a :: b :: rest).getLast hne = a := by
        have h1 := List.getLast?_eq_getLast (a :: b :: rest) hne
        rw [← hcl] at h1
        simp only [List.head?_cons, Option.some_inj] at h1
        exact h1.symm
      conv_lhs => rw [← List.dropLast_append_getLast hne]
      rw [hlast]
      rfl
    obtain ⟨hres, hlt, hget, hmin⟩ :=
      get_ordered_nodes_closeRing (a :: b :: rest).dropLast hdl2
    refine ⟨(lowest_pair (closeRing (a :: b :: rest).dropLast)).2, ?_, ?_, ?_, ?_, ?_⟩
    · have hm : (lowest_pair (closeRing (a :: b :: rest).dropLast)).2 ∈
          (a :: b :: rest).dropLast := min_mem_of_getElem? hget
      exact (List.dropLast_sublist _).subset hm
    · intro x hx
      rw [hC] at hx
      unfold closeRing at hx
      rcases List.mem_append.1 hx with hx | hx
      · exact hmin x hx
      · exact hmin x (List.take_subset 1 _ hx)
    · conv_lhs => rw [hC]
      rw [hres]
      have hrot_ne : (a :: b :: rest).dropLast.rotate
          (lowest_pair (closeRing (a :: b :: rest).dropLast)).1 ≠ [] := by
        intro hcontra
        have hlc := congrArg List.length hcontra
        rw [List.length_rotate] at hlc
        simp only [List.length_nil] at hlc
        omega
      rw [List.head?_append_of_ne_nil _ hrot_ne]
      rw [List.head?_eq_getElem?, List.getElem?_rotate (by omega)]
      have hz : (0 + (lowest_pair (closeRing (a :: b :: rest).dropLast)).1) %
          (a :: b :: rest).dropLast.length =
          (lowest_pair (closeRing (a :: b :: rest).dropLast)).1 := by
        rw [Nat.zero_add]
        exact Nat.mod_eq_of_lt hlt
      rw [hz]
      exact hget
    · conv_lhs => rw [hC]
      rw [hres, List.getLast?_concat]
    · conv_lhs => rw [hC]
      rw [hres, List.length_append, List.length_rotate, List.length_dropLast]
      simp only [List.length_cons, List.length_nil]
      omega
  · intro l hnot
    unfold get_ordered_nodes
    rw [if_neg hnot]

/-- Witness for C3 at the closed sequence `[2, 0, 1, 2]`. -/
theorem get_ordered_nodes_canonical_spec_witness :
    2 < ([2, 0, 1, 2] : List Nat).length ∧
    ([2, 0, 1, 2] : List Nat).head? = ([2, 0, 1, 2] : List Nat).getLast? ∧
    ∃ m, m ∈ ([2, 0, 1, 2] : List Nat) ∧ (∀ x ∈ ([2, 0, 1, 2] : List Nat), m ≤ x) ∧
      (get_ordered_nodes [2, 0, 1, 2]).head? = some m ∧
      (get_ordered_nodes [2, 0, 1, 2]).getLast? = some m ∧
      (get_ordered_nodes [2, 0, 1, 2]).length = ([2, 0, 1, 2] : List Nat).length :=
  ⟨by decide, by decide,
    get_ordered_nodes_canonical_spec.1 [2, 0, 1, 2] (by decide) (by decide)⟩

/-! ## Claim C10: ways created by the split stay within the limit -/

theorem fresh_chunk_ways_nodes (next_id : Nat) (tags : Tags) (rest : List (List Nat)) :
    (fresh_chunk_ways next_id tags rest).map (fun w => w.nodes) = rest := by
  unfold fresh_chunk_ways
  rw [List.map_map]
  show rest.enum.map Prod.snd = rest
  exact List.enum_map_snd rest

/-- Effect of one loop-body step on the node sequences stored in the
way list: either the step is the identity, or the way at `i` is replaced
by its first chunk and the remaining chunks are appended, every chunk
being a slice of the original node list. -/
theorem split_step_nodes_cases (st : OsmData) (i : Nat)
    (hL : 2 ≤ st.max_points_in_way) :
    split_step st i = st ∨
    ∃ way c0 rest, st.ways[i]? = some way ∧
      c0 ∈ slices st.max_points_in_way.toNat (st.max_points_in_way.toNat - 1) way.nodes ∧
      (∀ c ∈ rest,
        c ∈ slices st.max_points_in_way.toNat (st.max_points_in_way.toNat - 1) way.nodes) ∧
      (split_step st i).ways.map (fun w => w.nodes) =
        ((st.ways.map (fun w => w.nodes)).set i c0) ++ rest := by
  cases hway : st.ways[i]? with
  | none => left; exact split_step_none st i hway
  | some way =>
    by_cases hov : st.max_points_in_way < (way.nodes.length : Int)
    · right
      have hmap1 : (split_step st i).ways.map (fun w => w.nodes) =
          (split_way st i).2.ways.map (fun w => w.nodes) := by
        rw [split_step_some st i way hway, if_pos hov]
        exact foldl_fix (fun (x : OsmData) => x.ways.map (fun w => w.nodes)) _
          (fun a b => split_way_in_relation_ways_nodes a b (split_way st i).1) _ _
      rw [split_way_eq_core st i way hway] at hmap1
      unfold split_way_core at hmap1
      cases hc : slices st.max_points_in_way.toNat
          (st.max_points_in_way.toNat - 1) way.nodes with
      | nil =>
        exfalso
        refine slices_ne_nil _ _ _ (by omega) ?_ hc
        intro hn
        rw [hn] at hov
        simp only [List.length_nil] at hov
        omega
      | cons c0 rest =>
        rw [hc] at hmap1
        simp only [split_way_chunks] at hmap1
        rw [foldl_split_apply_ways] at hmap1
        refine ⟨way, c0, rest, rfl, ?_, ?_, ?_⟩
        · rw [hc]; exact List.mem_cons_self _ _
        · intro c hcm; rw [hc]; exact List.mem_cons_of_mem _ hcm
        · rw [hmap1]
          show ((st.ways.set i { way with nodes := c0 }) ++
            fresh_chunk_ways st.next_id way.tags rest).map (fun w => w.nodes) = _
          rw [List.map_append, fresh_chunk_ways_nodes, List.map_set]
    · left
      rw [split_step_some st i way hway, if_neg hov]

/-- Loop invariant of `split_loop`: ways stored at index `n0` or beyond
whose node sequences are within the limit stay within the limit, and
every way the loop appends there is within the limit. -/
theorem split_loop_nodes_short (st : OsmData) (i : Nat) :
    ∀ n0 : Nat,
      (∀ j, n0 ≤ j → ∀ ns, (st.ways.map (fun w => w.nodes))[j]? = some ns →
        (ns.length : Int) ≤ st.max_points_in_way) →
      ∀ j, n0 ≤ j → ∀ ns,
        ((split_loop st i).ways.map (fun w => w.nodes))[j]? = some ns →
        (ns.length : Int) ≤ st.max_points_in_way := by
  induction st, i using split_loop.induct with
  | case1 st i h ih =>
    intro n0 hinv j hj ns hns
    rw [split_loop_enter st i h] at hns
    have hmax := split_step_max st i
    have hres : (ns.length : Int) ≤ (split_step st i).max_points_in_way := by
      refine ih n0 ?_ j hj ns hns
      intro j2 hj2 ns2 hns2
      rw [hmax]
      rcases split_step_nodes_cases st i h.2 with heq | ⟨way, c0, rest, hway, hc0, hrest, hmapeq⟩
      · rw [heq] at hns2
        exact hinv j2 hj2 ns2 hns2
      · rw [hmapeq] at hns2
        by_cases hlt : j2 < ((st.ways.map (fun w => w.nodes)).set i c0).length
        · rw [List.getElem?_append, if_pos hlt] at hns2
          by_cases hij : i = j2
          · subst hij
            rw [List.length_set] at hlt
            rw [List.getElem?_set_self hlt] at hns2
            have hc0l := slices_chunk_length hc0
            have h2 := h.2
            obtain rfl : c0 = ns2 := Option.some_inj.1 hns2
            omega
          · rw [List.getElem?_set_ne hij] at hns2
            exact hinv j2 hj2 ns2 hns2
        · rw [List.getElem?_append, if_neg hlt] at hns2
          have hmem : ns2 ∈ rest := List.getElem?_mem hns2
          have hcl := slices_chunk_length (hrest ns2 hmem)
          have h2 := h.2
          omega
    rwa [hmax] at hres
  | case2 st i h =>
    intro n0 hinv j hj ns hns
    rw [split_loop_exit st i h] at hns
    exact hinv j hj ns hns

/-- C10: during `split_long_ways` every way created by `__split_way`
(stored at an index at or past the end of the original way store) has at
most `max_points_in_way` nodes, and the loop body leaves any way within
the limit untouched, so no newly appended way is ever itself split; the
loop (a terminating function visiting each stored index once) thus
splits each original over-long way exactly once. -/
theorem split_long_ways_appended_within_limit (st : OsmData)
    (hL : 2 ≤ st.max_points_in_way) :
    (∀ j, st.ways.length ≤ j → ∀ w,
        (split_long_ways st).ways[j]? = some w →
        (w.nodes.length : Int) ≤ st.max_points_in_way) ∧
    (∀ (s : OsmData) (j : Nat) (w : OsmWay), s.ways[j]? = some w →
        ¬ s.max_points_in_way < (w.nodes.length : Int) →
        split_step s j = s) := by
  constructor
  · intro j hj w hw
    have hnot : ¬ st.max_points_in_way < 2 := by omega
    rw [split_long_ways, if_neg hnot] at hw
    have hmapw : ((split_loop st 0).ways.map (fun w2 => w2.nodes))[j]? = some w.nodes := by
      rw [List.getElem?_map, hw]
      rfl
    refine split_loop_nodes_short st 0 st.ways.length ?_ j hj w.nodes hmapw
    intro j2 hj2 ns2 hns2
    rw [List.getElem?_eq_none (by simpa using hj2)] at hns2
    exact Option.noConfusion hns2
  · intro s j w hmem hshort
    rw [split_step_some s j w hmem, if_neg hshort]

/-- Witness for C10 at a store holding one 5-node way with limit 3. -/
theorem split_long_ways_appended_within_limit_witness :
    2 ≤ (OsmData.mk 0 3 [] []
        [OsmWay.mk 100 ([] : List (String × String)) [10, 11, 12, 13, 14] []]
        [] 300 []).max_points_in_way ∧
    ((∀ j, (OsmData.mk 0 3 [] []
          [OsmWay.mk 100 ([] : List (String × String)) [10, 11, 12, 13, 14] []]
          [] 300 []).ways.length ≤ j → ∀ w,
        (split_long_ways (OsmData.mk 0 3 [] []
          [OsmWay.mk 100 ([] : List (String × String)) [10, 11, 12, 13, 14] []]
          [] 300 [])).ways[j]? = some w →
        (w.nodes.length : Int) ≤ (OsmData.mk 0 3 [] []
          [OsmWay.mk 100 ([] : List (String × String)) [10, 11, 12, 13, 14] []]
          [] 300 []).max_points_in_way) ∧
      (∀ (s : OsmData) (j : Nat) (w : OsmWay), s.ways[j]? = some w →
        ¬ s.max_points_in_way < (w.nodes.length : Int) →
        split_step s j = s)) :=
  ⟨by decide, split_long_ways_appended_within_limit _ (by decide)⟩


/-! ## Claim C1 (amended): what the splitter actually produces -/

/-- The member-list update `__split_way_in_relation` applies to the
relation with the targeted id. -/
def upd_rel (rid : Nat) (ms : List (Member × String)) (r : OsmRelation) : OsmRelation :=
  if r.id = rid then { r with members := r.members ++ ms } else r

theorem upd_rel_of_eq (rid : Nat) (ms : List (Member × String)) (r : OsmRelation)
    (h : r.id = rid) : upd_rel rid ms r = { r with members := r.members ++ ms } :=
  if_pos h

theorem upd_rel_of_ne (rid : Nat) (ms : List (Member × String)) (r : OsmRelation)
    (h : ¬ r.id = rid) : upd_rel rid ms r = r :=
  if_neg h

theorem upd_rel_id (rid : Nat) (ms : List (Member × String)) (r : OsmRelation) :
    (upd_rel rid ms r).id = r.id := by
  unfold upd_rel
  split <;> rfl

theorem upd_rel_nil (rid : Nat) (r : OsmRelation) : upd_rel rid [] r = r := by
  unfold upd_rel
  split <;> simp

@[simp] theorem way_addparent_relations (st : OsmData) (wid pid : Nat) :
    (way_addparent st wid pid).relations = st.relations := rfl

theorem rel_append_member_relations (st : OsmData) (rid : Nat) (m : Member)
    (role : String) :
    (rel_append_member st rid m role).relations =
      st.relations.map (upd_rel rid [(m, role)]) := rfl

/-- Joint effect on the relation store of the `__split_way_in_relation`
loop body applied along a list of way ids with a fixed role. -/
theorem rel_append_foldl (ps : List Nat) (s : OsmData) (rid : Nat) (role : String) :
    (ps.foldl (fun s2 pid =>
        rel_append_member (way_addparent s2 pid rid) rid (Member.way pid) role) s).relations =
      s.relations.map (upd_rel rid (ps.map (fun pid => (Member.way pid, role)))) := by
  induction ps generalizing s with
  | nil =>
    rw [List.foldl_nil, List.map_nil]
    conv_lhs => rw [← List.map_id s.relations]
    apply List.map_congr_left
    intro r _
    rw [upd_rel_nil]
    rfl
  | cons p ps ih =>
    rw [List.foldl_cons, ih, rel_append_member_relations, way_addparent_relations,
      List.map_map]
    apply List.map_congr_left
    intro r _
    show upd_rel rid (ps.map (fun pid => (Member.way pid, role)))
      (upd_rel rid [(Member.way p, role)] r) = _
    by_cases h : r.id = rid
    · rw [upd_rel_of_eq _ _ _ h, upd_rel_of_eq, upd_rel_of_eq _ _ _ h]
      · simp [List.append_assoc]
      · exact h
    · rw [upd_rel_of_ne _ _ _ h, upd_rel_of_ne _ _ _ h, upd_rel_of_ne _ _ _ h]

/-- Effect of `__split_way_in_relation` on the relation store: the
targeted relation gains one `(member, role)` pair per non-first way part,
with the role read off before any append. -/
theorem split_way_in_relation_relations (s : OsmData) (rid : Nat) (parts : List Nat) :
    (split_way_in_relation s rid parts).relations =
      s.relations.map (upd_rel rid ((parts.drop 1).map
        (fun pid => (Member.way pid, split_relation_role s rid parts)))) := by
  unfold split_way_in_relation
  exact rel_append_foldl _ s rid _

theorem split_way_in_relation_rel_ids (s : OsmData) (rid : Nat) (parts : List Nat) :
    (split_way_in_relation s rid parts).relations.map (fun r => r.id) =
      s.relations.map (fun r => r.id) := by
  rw [split_way_in_relation_relations, List.map_map]
  apply List.map_congr_left
  intro r _
  exact upd_rel_id _ _ r

/-- In a store with distinct relation ids, `find?` on a stored
relation's id returns that relation. -/
theorem find?_rel_of_nodup (rels : List OsmRelation) (r : OsmRelation)
    (hnd : (rels.map (fun r2 => r2.id)).Nodup) (hmem : r ∈ rels) :
    rels.find? (fun r2 => r2.id = r.id) = some r := by
  induction rels with
  | nil => cases hmem
  | cons a rest ih =>
    rw [List.map_cons, List.nodup_cons] at hnd
    rcases List.mem_cons.1 hmem with rfl | hmem2
    · rw [List.find?_cons_of_pos]
      simp
    · have hne : ¬ a.id = r.id := by
        intro he
        exact hnd.1 (by rw [he]; exact List.mem_map_of_mem _ hmem2)
      rw [List.find?_cons_of_neg]
      · exact ih hnd.2 hmem2
      · simpa using hne

theorem split_relation_role_of_mem (s : OsmData) (r : OsmRelation) (parts : List Nat)
    (hnd : (s.relations.map (fun r2 => r2.id)).Nodup) (hmem : r ∈ s.relations) :
    split_relation_role s r.id parts =
      r.get_member_role (Member.way (parts.headD 0)) := by
  unfold split_relation_role
  rw [find?_rel_of_nodup s.relations r hnd hmem]

/-- Relations whose id is not among the processed relation ids pass
through the repair loop untouched. -/
theorem parents_foldl_preserve (parents : List Nat) (parts : List Nat) (s : OsmData)
    (r : OsmRelation) (hmem : r ∈ s.relations)
    (hnot : ∀ rid ∈ parents, ¬ r.id = rid) :
    r ∈ (parents.foldl (fun s2 rid => split_way_in_relation s2 rid parts) s).relations := by
  induction parents generalizing s with
  | nil => exact hmem
  | cons rid prest ih =>
    rw [List.foldl_cons]
    refine ih (split_way_in_relation s rid parts) ?_ ?_
    · rw [split_way_in_relation_relations]
      have hfr := List.mem_map_of_mem (upd_rel rid ((parts.drop 1).map
        (fun pid => (Member.way pid, split_relation_role s rid parts)))) hmem
      rw [upd_rel_of_ne _ _ _ (hnot rid (List.mem_cons_self rid prest))] at hfr
      exact hfr
    · intro rid2 h2
      exact hnot rid2 (List.mem_cons_of_mem rid h2)

/-- The repair loop of `split_long_ways` over the parents of the split
way: every stored relation whose id is a parent gains, appended to its
member list, one `(way id, original role)` pair per non-first way part,
the role being the one the relation stored for the first way part. -/
theorem parents_foldl_updates (parents parts : List Nat) :
    ∀ (s : OsmData), parents.Nodup →
      (s.relations.map (fun r2 => r2.id)).Nodup →
      ∀ r ∈ s.relations, r.id ∈ parents →
      ∃ r2 ∈ (parents.foldl (fun s2 rid => split_way_in_relation s2 rid parts) s).relations,
        r2.id = r.id ∧
        r2.members = r.members ++ (parts.drop 1).map
          (fun pid => (Member.way pid, r.get_member_role (Member.way (parts.headD 0)))) := by
  induction parents with
  | nil =>
    intro s _ _ r _ hin
    cases hin
  | cons rid prest ih =>
    intro s hnd hids r hmem hin
    rw [List.foldl_cons]
    rw [List.nodup_cons] at hnd
    have hids1 : ((split_way_in_relation s rid parts).relations.map
        (fun r2 => r2.id)).Nodup := by
      rw [split_way_in_relation_rel_ids]
      exact hids
    rcases List.mem_cons.1 hin with heq | hin2
    · subst heq
      have hrole : split_relation_role s r.id parts =
          r.get_member_role (Member.way (parts.headD 0)) :=
        split_relation_role_of_mem s r parts hids hmem
      have hmem2 : upd_rel r.id ((parts.drop 1).map
          (fun pid => (Member.way pid, split_relation_role s r.id parts))) r ∈
            (split_way_in_relation s r.id parts).relations := by
        rw [split_way_in_relation_relations]
        exact List.mem_map_of_mem _ hmem
      rw [upd_rel_of_eq _ _ _ rfl, hrole] at hmem2
      refine ⟨_, parents_foldl_preserve prest parts _ _ hmem2 ?_, rfl, rfl⟩
      intro rid2 h2 he
      apply hnd.1
      have he2 : r.id = rid2 := he
      rw [he2]
      exact h2
    · have hne : ¬ r.id = rid := by
        intro he
        apply hnd.1
        rw [← he]
        exact hin2
      have hmem1 : r ∈ (split_way_in_relation s rid parts).relations := by
        rw [split_way_in_relation_relations]
        have hfr := List.mem_map_of_mem (upd_rel rid ((parts.drop 1).map
          (fun pid => (Member.way pid, split_relation_role s rid parts)))) hmem
        rw [upd_rel_of_ne _ _ _ hne] at hfr
        exact hfr
      exact ih (split_way_in_relation s rid parts) hnd.2 hids1 r hmem1 hin2


theorem split_apply_chunk_relations (oldid : Nat) (s : OsmData) (nw : OsmWay) :
    (split_apply_chunk oldid s nw).relations = s.relations :=
  foldl_fix (fun (x : OsmData) => x.relations)
    (fun s2 nid => node_addparent (node_removeparent s2 nid oldid) nid nw.id)
    (fun _ _ => rfl) nw.nodes { s with ways := s.ways ++ [nw] }

theorem foldl_split_apply_relations (oldid : Nat) (freshes : List OsmWay) (s : OsmData) :
    (freshes.foldl (split_apply_chunk oldid) s).relations = s.relations :=
  foldl_fix (fun (x : OsmData) => x.relations) _
    (fun a b => split_apply_chunk_relations oldid a b) _ _

/-- The chunk comprehension on a node list of exactly `2L - 1` nodes
(limit `L ≥ 2`) yields exactly three chunks. -/
theorem slices_2Lm1 (Lt : Nat) (hLt : 2 ≤ Lt) (l : List Nat)
    (hlen : l.length = 2 * Lt - 1) :
    slices Lt (Lt - 1) l =
      [l.take Lt, (l.drop (Lt - 1)).take Lt, (l.drop (2 * Lt - 2)).take Lt] := by
  unfold slices
  have hcount : (l.length + (Lt - 1) - 1) / (Lt - 1) = 3 := by
    have h3 : l.length + (Lt - 1) - 1 = 3 * (Lt - 1) := by omega
    rw [h3, Nat.mul_div_cancel]
    omega
  rw [hcount]
  rw [show List.range 3 = [0, 1, 2] from rfl, List.map_cons, List.map_cons,
    List.map_cons, List.map_nil]
  have h2 : (Lt - 1) * 2 = 2 * Lt - 2 := by omega
  rw [Nat.mul_zero, Nat.mul_one, h2, List.drop_zero]

/-- `__split_way` on a store holding the single way `w` of `2L - 1`
nodes: the part-id list is `[w.id, next_id, next_id + 1]`, the stored
node sequences become the three chunks, and the relation store is
untouched. -/
theorem split_way_concrete (st : OsmData) (w : OsmWay) (hways : st.ways = [w])
    (hL : 2 ≤ st.max_points_in_way)
    (hn : (w.nodes.length : Int) = 2 * st.max_points_in_way - 1) :
    (split_way st 0).1 = [w.id, st.next_id, st.next_id + 1] ∧
    (split_way st 0).2.ways.map (fun v => v.nodes) =
      [w.nodes.take st.max_points_in_way.toNat,
       (w.nodes.drop (st.max_points_in_way.toNat - 1)).take st.max_points_in_way.toNat,
       (w.nodes.drop (2 * st.max_points_in_way.toNat - 2)).take st.max_points_in_way.toNat] ∧
    (split_way st 0).2.relations = st.relations := by
  have hw0 : st.ways[0]? = some w := by rw [hways]; rfl
  rw [split_way_eq_core st 0 w hw0]
  unfold split_way_core
  have hLt : 2 ≤ st.max_points_in_way.toNat := by omega
  have hlen : w.nodes.length = 2 * st.max_points_in_way.toNat - 1 := by omega
  rw [slices_2Lm1 _ hLt _ hlen]
  have hfresh : fresh_chunk_ways st.next_id w.tags
      [(w.nodes.drop (st.max_points_in_way.toNat - 1)).take st.max_points_in_way.toNat,
       (w.nodes.drop (2 * st.max_points_in_way.toNat - 2)).take st.max_points_in_way.toNat] =
      [OsmWay.mk (st.next_id + 0) w.tags
        ((w.nodes.drop (st.max_points_in_way.toNat - 1)).take st.max_points_in_way.toNat) [],
       OsmWay.mk (st.next_id + 1) w.tags
        ((w.nodes.drop (2 * st.max_points_in_way.toNat - 2)).take st.max_points_in_way.toNat)
        []] := rfl
  simp only [split_way_chunks]
  rw [hfresh]
  refine ⟨by simp, ?_, ?_⟩
  · rw [foldl_split_apply_ways]
    rw [hways]
    rfl
  · rw [foldl_split_apply_relations]


theorem split_step_zero_eq (st : OsmData) (w : OsmWay) (hways : st.ways = [w])
    (hL : 2 ≤ st.max_points_in_way)
    (hn : (w.nodes.length : Int) = 2 * st.max_points_in_way - 1) :
    split_step st 0 = w.parents.foldl
      (fun s rid => split_way_in_relation s rid [w.id, st.next_id, st.next_id + 1])
      (split_way st 0).2 := by
  have hw0 : st.ways[0]? = some w := by rw [hways]; rfl
  have hov : st.max_points_in_way < (w.nodes.length : Int) := by omega
  rw [split_step_some st 0 w hw0, if_pos hov, (split_way_concrete st w hways hL hn).1]

/-- Combined effect of the loop body of `split_long_ways` on the store
holding the single `2L - 1`-node way `w`. -/
theorem split_step_zero_props (st : OsmData) (w : OsmWay) (hways : st.ways = [w])
    (hL : 2 ≤ st.max_points_in_way)
    (hn : (w.nodes.length : Int) = 2 * st.max_points_in_way - 1)
    (hparnd : w.parents.Nodup)
    (hidsnd : (st.relations.map (fun r => r.id)).Nodup) :
    (split_step st 0).ways.map (fun v => v.nodes) =
      [w.nodes.take st.max_points_in_way.toNat,
       (w.nodes.drop (st.max_points_in_way.toNat - 1)).take st.max_points_in_way.toNat,
       (w.nodes.drop (2 * st.max_points_in_way.toNat - 2)).take st.max_points_in_way.toNat] ∧
    (∀ r ∈ st.relations, r.id ∈ w.parents →
      ∃ r2 ∈ (split_step st 0).relations, r2.id = r.id ∧
        r2.members = r.members ++
          [(Member.way st.next_id, r.get_member_role (Member.way w.id)),
           (Member.way (st.next_id + 1), r.get_member_role (Member.way w.id))]) := by
  obtain ⟨hparts, hnodes, hrels⟩ := split_way_concrete st w hways hL hn
  rw [split_step_zero_eq st w hways hL hn]
  constructor
  · rw [foldl_fix (fun (x : OsmData) => x.ways.map (fun v => v.nodes))
      (fun s rid => split_way_in_relation s rid [w.id, st.next_id, st.next_id + 1])
      (fun a b => split_way_in_relation_ways_nodes a b _) w.parents (split_way st 0).2]
    exact hnodes
  · intro r hr hrp
    have hmem2 : r ∈ (split_way st 0).2.relations := by rw [hrels]; exact hr
    have hids2 : ((split_way st 0).2.relations.map (fun r2 => r2.id)).Nodup := by
      rw [hrels]; exact hidsnd
    obtain ⟨r2, hr2mem, hr2id, hr2mem2⟩ := parents_foldl_updates w.parents
      [w.id, st.next_id, st.next_id + 1] (split_way st 0).2 hparnd hids2 r hmem2 hrp
    exact ⟨r2, hr2mem, hr2id, hr2mem2⟩

/-- With limit at least 2 and a single stored way of `2L - 1` nodes the
iteration of `split_long_ways` performs exactly one split: the steps at
the freshly created chunk ways are identities. -/
theorem split_long_ways_eq_step_zero (st : OsmData) (w : OsmWay) (hways : st.ways = [w])
    (hL : 2 ≤ st.max_points_in_way)
    (hn : (w.nodes.length : Int) = 2 * st.max_points_in_way - 1)
    (hparnd : w.parents.Nodup)
    (hidsnd : (st.relations.map (fun r => r.id)).Nodup) :
    split_long_ways st = split_step st 0 := by
  obtain ⟨hmap, _⟩ := split_step_zero_props st w hways hL hn hparnd hidsnd
  have hmax1 := split_step_max st 0
  have hlen3 : (split_step st 0).ways.length = 3 := by
    have := congrArg List.length hmap
    rwa [List.length_map] at this
  have hnoop : ∀ j c, ((split_step st 0).ways.map (fun v => v.nodes))[j]? = some c →
      c.length ≤ st.max_points_in_way.toNat → split_step (split_step st 0) j =
        split_step st 0 := by
    intro j c hj hcl
    rw [List.getElem?_map] at hj
    obtain ⟨wj, hwj, hwjn⟩ := Option.map_eq_some'.1 hj
    have hnov : ¬ (split_step st 0).max_points_in_way < (wj.nodes.length : Int) := by
      rw [hmax1, hwjn]
      omega
    rw [split_step_some _ j wj hwj, if_neg hnov]
  have hc1 : ((split_step st 0).ways.map (fun v => v.nodes))[1]? =
      some ((w.nodes.drop (st.max_points_in_way.toNat - 1)).take
        st.max_points_in_way.toNat) := by
    rw [hmap]
    rfl
  have hc2 : ((split_step st 0).ways.map (fun v => v.nodes))[2]? =
      some ((w.nodes.drop (2 * st.max_points_in_way.toNat - 2)).take
        st.max_points_in_way.toNat) := by
    rw [hmap]
    rfl
  have hstep1 := hnoop 1 _ hc1 (List.length_take_le _ _)
  have hstep2 := hnoop 2 _ hc2 (List.length_take_le _ _)
  unfold split_long_ways
  rw [if_neg (by omega)]
  rw [split_loop_enter st 0 ⟨by rw [hways]; simp, hL⟩]
  rw [split_loop_enter _ 1 ⟨by omega, by rw [hmax1]; exact hL⟩]
  rw [hstep1]
  rw [split_loop_enter _ 2 ⟨by omega, by rw [hmax1]; exact hL⟩]
  rw [hstep2]
  rw [split_loop_exit _ 3 ?_]
  intro hcontra
  omega


/-- The first two chunks of the `2L - 1`-node split share exactly one
node: the last node of the first chunk is the first node of the second,
and (for duplicate-free node sequences) no other node is common. -/
theorem chunk_overlap (l : List Nat) (Lt : Nat) (hLt : 2 ≤ Lt)
    (hlen : l.length = 2 * Lt - 1) (hnd : l.Nodup) :
    ∃ shared, (l.take Lt).getLast? = some shared ∧
      ((l.drop (Lt - 1)).take Lt).head? = some shared ∧
      ∀ x, x ∈ l.take Lt → x ∈ (l.drop (Lt - 1)).take Lt → x = shared := by
  have hidx : Lt - 1 < l.length := by omega
  refine ⟨l.get ⟨Lt - 1, hidx⟩, ?_, ?_, ?_⟩
  · rw [List.getLast?_eq_getElem?]
    have hlt : (l.take Lt).length = Lt := by
      rw [List.length_take]
      omega
    rw [hlt, List.getElem?_take, if_pos (by omega), List.getElem?_eq_getElem hidx]
    rfl
  · rw [List.head?_eq_getElem?, List.getElem?_take, if_pos (by omega),
      List.getElem?_drop]
    have h0 : Lt - 1 + 0 = Lt - 1 := by omega
    rw [h0, List.getElem?_eq_getElem hidx]
    rfl
  · intro x hx1 hx2
    obtain ⟨i, hib, hie⟩ := List.mem_iff_getElem.1 hx1
    obtain ⟨j, hjb, hje⟩ := List.mem_iff_getElem.1 hx2
    have hiLt : i < Lt := by
      rw [List.length_take] at hib
      omega
    have hjLt : j < Lt := by
      rw [List.length_take] at hjb
      omega
    have hi : l[i]? = some x := by
      have h1 : (l.take Lt)[i]? = some x := by
        rw [List.getElem?_eq_getElem hib, hie]
      rwa [List.getElem?_take, if_pos hiLt] at h1
    have hj : l[Lt - 1 + j]? = some x := by
      have h1 : ((l.drop (Lt - 1)).take Lt)[j]? = some x := by
        rw [List.getElem?_eq_getElem hjb, hje]
      rw [List.getElem?_take, if_pos hjLt, List.getElem?_drop] at h1
      exact h1
    have hij : i = Lt - 1 + j := List.getElem?_inj (by omega) hnd (hi.trans hj.symm)
    have hieq : i = Lt - 1 := by omega
    rw [hieq] at hi
    rw [List.getElem?_eq_getElem hidx] at hi
    exact (Option.some_inj.1 hi).symm

/-- C1 (amended): for a store holding one way `w` whose node sequence
has exactly `2L - 1` distinct nodes, where `L = max_points_in_way ≥ 2`,
`split_long_ways` produces exactly 3 ways from it (the chunk starts
`range(0, 2L-1, L-1)` are `0`, `L-1` and `2L-2`, so a trailing
single-node chunk appears after the two `L`-node chunks); the first two
resulting ways share exactly one common node, and every relation (in a
store with distinct relation ids) registered as a parent of the original
way afterwards contains both freshly created ways as members with the
original member's role. -/
theorem split_long_ways_two_L_minus_one_amended (st : OsmData) (w : OsmWay)
    (hways : st.ways = [w]) (hL : 2 ≤ st.max_points_in_way)
    (hn : (w.nodes.length : Int) = 2 * st.max_points_in_way - 1)
    (hnd : w.nodes.Nodup) (hparnd : w.parents.Nodup)
    (hidsnd : (st.relations.map (fun r => r.id)).Nodup) :
    ((split_long_ways st).ways.map (fun v => v.nodes) =
      [w.nodes.take st.max_points_in_way.toNat,
       (w.nodes.drop (st.max_points_in_way.toNat - 1)).take st.max_points_in_way.toNat,
       (w.nodes.drop (2 * st.max_points_in_way.toNat - 2)).take
         st.max_points_in_way.toNat]) ∧
    (∃ shared,
      (w.nodes.take st.max_points_in_way.toNat).getLast? = some shared ∧
      ((w.nodes.drop (st.max_points_in_way.toNat - 1)).take
        st.max_points_in_way.toNat).head? = some shared ∧
      ∀ x, x ∈ w.nodes.take st.max_points_in_way.toNat →
        x ∈ (w.nodes.drop (st.max_points_in_way.toNat - 1)).take
          st.max_points_in_way.toNat → x = shared) ∧
    (∀ r ∈ st.relations, r.id ∈ w.parents →
      ∃ r2 ∈ (split_long_ways st).relations, r2.id = r.id ∧
        r2.members = r.members ++
          [(Member.way st.next_id, r.get_member_role (Member.way w.id)),
           (Member.way (st.next_id + 1), r.get_member_role (Member.way w.id))]) := by
  obtain ⟨hmap, hrel⟩ := split_step_zero_props st w hways hL hn hparnd hidsnd
  rw [split_long_ways_eq_step_zero st w hways hL hn hparnd hidsnd]
  refine ⟨hmap, ?_, hrel⟩
  exact chunk_overlap w.nodes st.max_points_in_way.toNat (by omega) (by omega) hnd

/-- Witness for the amended C1 at limit 2 and the 3-node way
`[10, 11, 12]` sitting in the relation 200 with role `"outer"`. -/
theorem split_long_ways_two_L_minus_one_amended_witness :
    ((OsmData.mk 0 2 [] [] [OsmWay.mk 100 ([] : List (String × String)) [10, 11, 12] [200]] [OsmRelation.mk 200 ([] : List (String × String)) [(Member.way 100, "outer")] []] 300 []).ways = [OsmWay.mk 100 ([] : List (String × String)) [10, 11, 12] [200]] ∧
     2 ≤ (OsmData.mk 0 2 [] [] [OsmWay.mk 100 ([] : List (String × String)) [10, 11, 12] [200]] [OsmRelation.mk 200 ([] : List (String × String)) [(Member.way 100, "outer")] []] 300 []).max_points_in_way ∧
     (((OsmWay.mk 100 ([] : List (String × String)) [10, 11, 12] [200]).nodes.length : Int) = 2 * (OsmData.mk 0 2 [] [] [OsmWay.mk 100 ([] : List (String × String)) [10, 11, 12] [200]] [OsmRelation.mk 200 ([] : List (String × String)) [(Member.way 100, "outer")] []] 300 []).max_points_in_way - 1) ∧
     (OsmWay.mk 100 ([] : List (String × String)) [10, 11, 12] [200]).nodes.Nodup ∧
     (OsmWay.mk 100 ([] : List (String × String)) [10, 11, 12] [200]).parents.Nodup ∧
     ((OsmData.mk 0 2 [] [] [OsmWay.mk 100 ([] : List (String × String)) [10, 11, 12] [200]] [OsmRelation.mk 200 ([] : List (String × String)) [(Member.way 100, "outer")] []] 300 []).relations.map (fun r => r.id)).Nodup) ∧
    (((split_long_ways (OsmData.mk 0 2 [] [] [OsmWay.mk 100 ([] : List (String × String)) [10, 11, 12] [200]] [OsmRelation.mk 200 ([] : List (String × String)) [(Member.way 100, "outer")] []] 300 [])).ways.map (fun v => v.nodes) =
      [(OsmWay.mk 100 ([] : List (String × String)) [10, 11, 12] [200]).nodes.take (OsmData.mk 0 2 [] [] [OsmWay.mk 100 ([] : List (String × String)) [10, 11, 12] [200]] [OsmRelation.mk 200 ([] : List (String × String)) [(Member.way 100, "outer")] []] 300 []).max_points_in_way.toNat,
       ((OsmWay.mk 100 ([] : List (String × String)) [10, 11, 12] [200]).nodes.drop ((OsmData.mk 0 2 [] [] [OsmWay.mk 100 ([] : List (String × String)) [10, 11, 12] [200]] [OsmRelation.mk 200 ([] : List (String × String)) [(Member.way 100, "outer")] []] 300 []).max_points_in_way.toNat - 1)).take
         (OsmData.mk 0 2 [] [] [OsmWay.mk 100 ([] : List (String × String)) [10, 11, 12] [200]] [OsmRelation.mk 200 ([] : List (String × String)) [(Member.way 100, "outer")] []] 300 []).max_points_in_way.toNat,
       ((OsmWay.mk 100 ([] : List (String × String)) [10, 11, 12] [200]).nodes.drop (2 * (OsmData.mk 0 2 [] [] [OsmWay.mk 100 ([] : List (String × String)) [10, 11, 12] [200]] [OsmRelation.mk 200 ([] : List (String × String)) [(Member.way 100, "outer")] []] 300 []).max_points_in_way.toNat - 2)).take
         (OsmData.mk 0 2 [] [] [OsmWay.mk 100 ([] : List (String × String)) [10, 11, 12] [200]] [OsmRelation.mk 200 ([] : List (String × String)) [(Member.way 100, "outer")] []] 300 []).max_points_in_way.toNat]) ∧
    (∃ shared,
      ((OsmWay.mk 100 ([] : List (String × String)) [10, 11, 12] [200]).nodes.take (OsmData.mk 0 2 [] [] [OsmWay.mk 100 ([] : List (String × String)) [10, 11, 12] [200]] [OsmRelation.mk 200 ([] : List (String × String)) [(Member.way 100, "outer")] []] 300 []).max_points_in_way.toNat).getLast? = some shared ∧
      (((OsmWay.mk 100 ([] : List (String × String)) [10, 11, 12] [200]).nodes.drop ((OsmData.mk 0 2 [] [] [OsmWay.mk 100 ([] : List (String × String)) [10, 11, 12] [200]] [OsmRelation.mk 200 ([] : List (String × String)) [(Member.way 100, "outer")] []] 300 []).max_points_in_way.toNat - 1)).take
        (OsmData.mk 0 2 [] [] [OsmWay.mk 100 ([] : List (String × String)) [10, 11, 12] [200]] [OsmRelation.mk 200 ([] : List (String × String)) [(Member.way 100, "outer")] []] 300 []).max_points_in_way.toNat).head? = some shared ∧
      ∀ x, x ∈ (OsmWay.mk 100 ([] : List (String × String)) [10, 11, 12] [200]).nodes.take (OsmData.mk 0 2 [] [] [OsmWay.mk 100 ([] : List (String × String)) [10, 11, 12] [200]] [OsmRelation.mk 200 ([] : List (String × String)) [(Member.way 100, "outer")] []] 300 []).max_points_in_way.toNat →
        x ∈ ((OsmWay.mk 100 ([] : List (String × String)) [10, 11, 12] [200]).nodes.drop ((OsmData.mk 0 2 [] [] [OsmWay.mk 100 ([] : List (String × String)) [10, 11, 12] [200]] [OsmRelation.mk 200 ([] : List (String × String)) [(Member.way 100, "outer")] []] 300 []).max_points_in_way.toNat - 1)).take
          (OsmData.mk 0 2 [] [] [OsmWay.mk 100 ([] : List (String × String)) [10, 11, 12] [200]] [OsmRelation.mk 200 ([] : List (String × String)) [(Member.way 100, "outer")] []] 300 []).max_points_in_way.toNat → x = shared) ∧
    (∀ r ∈ (OsmData.mk 0 2 [] [] [OsmWay.mk 100 ([] : List (String × String)) [10, 11, 12] [200]] [OsmRelation.mk 200 ([] : List (String × String)) [(Member.way 100, "outer")] []] 300 []).relations, r.id ∈ (OsmWay.mk 100 ([] : List (String × String)) [10, 11, 12] [200]).parents →
      ∃ r2 ∈ (split_long_ways (OsmData.mk 0 2 [] [] [OsmWay.mk 100 ([] : List (String × String)) [10, 11, 12] [200]] [OsmRelation.mk 200 ([] : List (String × String)) [(Member.way 100, "outer")] []] 300 [])).relations, r2.id = r.id ∧
        r2.members = r.members ++
          [(Member.way (OsmData.mk 0 2 [] [] [OsmWay.mk 100 ([] : List (String × String)) [10, 11, 12] [200]] [OsmRelation.mk 200 ([] : List (String × String)) [(Member.way 100, "outer")] []] 300 []).next_id, r.get_member_role (Member.way (OsmWay.mk 100 ([] : List (String × String)) [10, 11, 12] [200]).id)),
           (Member.way ((OsmData.mk 0 2 [] [] [OsmWay.mk 100 ([] : List (String × String)) [10, 11, 12] [200]] [OsmRelation.mk 200 ([] : List (String × String)) [(Member.way 100, "outer")] []] 300 []).next_id + 1),
             r.get_member_role (Member.way (OsmWay.mk 100 ([] : List (String × String)) [10, 11, 12] [200]).id))])) :=
  ⟨⟨rfl, by decide, by decide, by decide, by decide, by decide⟩,
    split_long_ways_two_L_minus_one_amended (OsmData.mk 0 2 [] [] [OsmWay.mk 100 ([] : List (String × String)) [10, 11, 12] [200]] [OsmRelation.mk 200 ([] : List (String × String)) [(Member.way 100, "outer")] []] 300 []) (OsmWay.mk 100 ([] : List (String × String)) [10, 11, 12] [200])
      rfl (by decide) (by decide) (by decide) (by decide) (by decide)⟩


/-! ## Claim C7: the multipolygon branch of the collection parser -/

theorem add_node_relations (tr : Translation) (st : OsmData) (x y : ℚ) (tags : Tags)
    (b : Bool) : (add_node tr st x y tags b).2.relations = st.relations := by
  unfold add_node
  split
  · split <;> rfl
  · rfl

theorem ls_step_relations (tr : Translation) (acc : LsAcc) (pt : ℚ × ℚ × ℚ) :
    (ls_step tr acc pt).st.relations = acc.st.relations := by
  simp only [ls_step]
  split
  · exact add_node_relations tr acc.st pt.1 pt.2.1 {} true
  · exact add_node_relations tr acc.st pt.1 pt.2.1 {} true

theorem parse_linestring_relations (tr : Translation) (st : OsmData) (g : OgrGeometry)
    (tags : Tags) : (parse_linestring tr st g tags).2.relations = st.relations := by
  have hacc : (g.points.foldl (ls_step tr) ⟨none, [], [], st⟩).st.relations =
      st.relations :=
    foldl_fix (fun (a : LsAcc) => a.st.relations) (ls_step tr)
      (fun a b => ls_step_relations tr a b) g.points ⟨none, [], [], st⟩
  simp only [parse_linestring]
  split
  · exact hacc
  · refine Eq.trans (foldl_fix (fun (x : OsmData) => x.relations)
      (fun s nid => node_addparent s nid
        (g.points.foldl (ls_step tr) ⟨none, [], [], st⟩).st.next_id)
      (fun a b => rfl)
      (g.points.foldl (ls_step tr) ⟨none, [], [], st⟩).nodes _) hacc

theorem upd_rel_comp (rid : Nat) (ms1 ms2 : List (Member × String)) (r : OsmRelation) :
    upd_rel rid ms2 (upd_rel rid ms1 r) = upd_rel rid (ms1 ++ ms2) r := by
  unfold upd_rel
  by_cases h : r.id = rid
  · rw [if_pos h, if_pos h]
    rw [if_pos (show ({ r with members := r.members ++ ms1 } : OsmRelation).id = rid from h)]
    simp [List.append_assoc]
  · rw [if_neg h, if_neg h, if_neg h]

theorem map_upd_rel_nil (rid : Nat) (l : List OsmRelation) :
    l.map (upd_rel rid []) = l := by
  conv_rhs => rw [← List.map_id l]
  apply List.map_congr_left
  intro r _
  exact upd_rel_nil rid r

theorem map_upd_rel_append (rid : Nat) (ms1 ms2 : List (Member × String))
    (l : List OsmRelation) :
    (l.map (upd_rel rid ms1)).map (upd_rel rid ms2) = l.map (upd_rel rid (ms1 ++ ms2)) := by
  rw [List.map_map]
  apply List.map_congr_left
  intro r _
  exact upd_rel_comp rid ms1 ms2 r

/-- Generic shape of the member-append loops of the multipolygon branch:
every step appends one member with the fixed role to the relation
`rid`. -/
theorem foldl_rel_append_generic {β : Type} (rid : Nat) (f : OsmData → β → OsmData)
    (role : String)
    (hstep : ∀ s b, ∃ mid, (f s b).relations =
      s.relations.map (upd_rel rid [(Member.way mid, role)]))
    (l : List β) : ∀ s : OsmData, ∃ ms : List (Member × String),
      ms.map Prod.snd = l.map (fun _ => role) ∧
      (l.foldl f s).relations = s.relations.map (upd_rel rid ms) := by
  induction l with
  | nil =>
    intro s
    exact ⟨[], rfl, (map_upd_rel_nil rid s.relations).symm⟩
  | cons b bs ih =>
    intro s
    obtain ⟨mid, hmid⟩ := hstep s b
    obtain ⟨ms, hms, hrel⟩ := ih (f s b)
    refine ⟨(Member.way mid, role) :: ms, by simp [hms], ?_⟩
    rw [List.foldl_cons, hrel, hmid, map_upd_rel_append]
    rfl

/-- The per-part loop of the multipolygon branch, on parts that all have
at least one ring: it succeeds, and its only effect on the relation
store is to append to relation `rid` one `"outer"` member per part
followed by one `"inner"` member per interior ring of that part. -/
theorem mp_parts_loop_ok (tr : Translation) (rid : Nat) (parts : List OgrGeometry) :
    ∀ st : OsmData, (∀ p ∈ parts, p.children ≠ []) →
    ∃ st2 ms, mp_parts_loop tr rid parts st = .ok st2 ∧
      ms.map Prod.snd =
        (parts.map (fun p =>
          "outer" :: (p.children.drop 1).map (fun _ => "inner"))).flatten ∧
      st2.relations = st.relations.map (upd_rel rid ms) := by
  induction parts with
  | nil =>
    intro st _
    exact ⟨st, [], rfl, rfl, (map_upd_rel_nil rid st.relations).symm⟩
  | cons part rest ih =>
    intro st h
    have hpc : part.children ≠ [] := h part (List.mem_cons_self part rest)
    cases hch : part.children with
    | nil => exact absurd hch hpc
    | cons ext interiors =>
      have hstep : ∀ (s : OsmData) (ig : OgrGeometry), ∃ mid,
          ((fun (s2 : OsmData) (ig2 : OgrGeometry) =>
            let ri := parse_linestring tr s2 ig2 {}
            rel_append_member (way_addparent ri.2 ri.1.id rid) rid
              (Member.way ri.1.id) "inner") s ig).relations =
          s.relations.map (upd_rel rid [(Member.way mid, "inner")]) := by
        intro s ig
        refine ⟨(parse_linestring tr s ig {}).1.id, ?_⟩
        show (rel_append_member _ rid _ "inner").relations = _
        rw [rel_append_member_relations, way_addparent_relations,
          parse_linestring_relations]
      obtain ⟨st2, ms, hloop, hms, hrel⟩ := ih
        (interiors.foldl (fun s ig =>
          let ri := parse_linestring tr s ig {}
          rel_append_member (way_addparent ri.2 ri.1.id rid) rid
            (Member.way ri.1.id) "inner")
          (rel_append_member
            (way_addparent (parse_linestring tr st ext {}).2
              (parse_linestring tr st ext {}).1.id rid) rid
            (Member.way (parse_linestring tr st ext {}).1.id) "outer"))
        (fun p hp => h p (List.mem_cons_of_mem part hp))
      obtain ⟨msI, hmsI, hrelI⟩ := foldl_rel_append_generic rid _ "inner" hstep interiors
        (rel_append_member
          (way_addparent (parse_linestring tr st ext {}).2
            (parse_linestring tr st ext {}).1.id rid) rid
          (Member.way (parse_linestring tr st ext {}).1.id) "outer")
      refine ⟨st2, (Member.way (parse_linestring tr st ext {}).1.id, "outer") ::
        (msI ++ ms), ?_, ?_, ?_⟩
      · show mp_parts_loop tr rid (part :: rest) st = Except.ok st2
        unfold mp_parts_loop
        rw [hch]
        exact hloop
      · rw [List.map_cons, List.map_cons, List.flatten_cons, hch]
        show "outer" :: (msI ++ ms).map Prod.snd = _
        rw [List.map_append, hmsI, hms]
        rfl
      · rw [hrel, hrelI, rel_append_member_relations, way_addparent_relations,
          parse_linestring_relations, map_upd_rel_append, map_upd_rel_append]
        rfl


/-- C7: for a multipolygon geometry with more than one polygon part
(each part having at least one ring), parsing always succeeds and
creates exactly one new relation — its id is the fresh counter value, no
duplicate detection against existing relations is attempted (the store
grows by exactly one relation unconditionally) — whose member roles are,
part by part, `"outer"` for the exterior ring followed by `"inner"` for
each interior ring; for a multipolygon with exactly one part, parsing
returns the result of the single-polygon parser applied to that part. -/
theorem parse_collection_multipolygon (tr : Translation) (st : OsmData)
    (g : OgrGeometry) (tags : Tags)
    (hg : g.gtype = wkbMultiPolygon ∨ g.gtype = wkbMultiPolygon25D) :
    (1 < g.children.length → (∀ p ∈ g.children, p.children ≠ []) →
      (∀ r ∈ st.relations, ¬ r.id = st.next_id) →
      ∃ R st2, parse_collection tr st g tags = .ok ([some (.rel R)], st2) ∧
        R.id = st.next_id ∧ R.tags = tags ∧
        R.members.map Prod.snd =
          (g.children.map (fun p =>
            "outer" :: (p.children.drop 1).map (fun _ => "inner"))).flatten ∧
        st2.relations.length = st.relations.length + 1) ∧
    (∀ c0, g.children = [c0] →
      parse_collection tr st g tags =
        .ok ([(parse_polygon tr st c0 tags).1], (parse_polygon tr st c0 tags).2)) := by
  constructor
  · intro hlen hparts hfresh
    obtain ⟨st2, ms, hloop, hms, hrel⟩ :=
      mp_parts_loop_ok tr st.next_id g.children (add_relation st tags).2 hparts
    have hrel2 : st2.relations =
        (st.relations.map (upd_rel st.next_id ms)) ++
          [upd_rel st.next_id ms (OsmRelation.mk st.next_id tags [] [])] := by
      rw [hrel]
      show ((st.relations ++ [OsmRelation.mk st.next_id tags [] []]).map
        (upd_rel st.next_id ms)) = _
      rw [List.map_append]
      rfl
    have hfind : st2.relations.find? (fun r => r.id = st.next_id) =
        some (upd_rel st.next_id ms (OsmRelation.mk st.next_id tags [] [])) := by
      rw [hrel2, List.find?_append]
      have hnone : (st.relations.map (upd_rel st.next_id ms)).find?
          (fun r => r.id = st.next_id) = none := by
        rw [List.find?_eq_none]
        intro r2 hr2
        obtain ⟨r, hr, rfl⟩ := List.mem_map.1 hr2
        simp only [decide_eq_true_eq]
        rw [upd_rel_id]
        exact hfresh r hr
      rw [hnone]
      have hid : (upd_rel st.next_id ms (OsmRelation.mk st.next_id tags [] [])).id =
          st.next_id := upd_rel_id _ _ _
      have hsingle : List.find? (fun r => decide (r.id = st.next_id))
          [upd_rel st.next_id ms (OsmRelation.mk st.next_id tags [] [])] =
          some (upd_rel st.next_id ms (OsmRelation.mk st.next_id tags [] [])) := by
        simp [List.find?, hid]
      rw [hsingle]
      rfl
    have hloop2 : mp_parts_loop tr (add_relation st tags).1.id g.children
        (add_relation st tags).2 = Except.ok st2 := hloop
    have hfind2 : st2.relations.find? (fun r => r.id = (add_relation st tags).1.id) =
        some (upd_rel st.next_id ms (OsmRelation.mk st.next_id tags [] [])) := hfind
    refine ⟨upd_rel st.next_id ms (OsmRelation.mk st.next_id tags [] []), st2, ?_, ?_, ?_, ?_, ?_⟩
    · show parse_collection tr st g tags = _
      simp only [parse_collection]
      rw [if_pos hg, if_pos hlen, hloop2]
      show Except.ok ([some (OsmEntity.rel ((st2.relations.find?
        (fun r => r.id = (add_relation st tags).1.id)).getD (add_relation st tags).1))],
          st2) = _
      rw [hfind2]
      rfl
    · rw [upd_rel_id]
    · rw [upd_rel_of_eq st.next_id ms (OsmRelation.mk st.next_id tags [] [])
        (show (OsmRelation.mk st.next_id tags [] []).id = st.next_id from rfl)]
    · rw [upd_rel_of_eq st.next_id ms (OsmRelation.mk st.next_id tags [] [])
        (show (OsmRelation.mk st.next_id tags [] []).id = st.next_id from rfl)]
      show (List.map Prod.snd ms) = _
      exact hms
    · rw [hrel2, List.length_append, List.length_map]
      rfl
  · intro c0 hch
    have hnot : ¬ 1 < g.children.length := by
      rw [hch]
      simp
    simp only [parse_collection]
    rw [if_pos hg, if_neg hnot, hch]


/-- Witness for C7 at a two-part multipolygon over an empty store. -/
theorem parse_collection_multipolygon_witness :
    ((OgrGeometry.mk wkbMultiPolygon [] [OgrGeometry.mk wkbPolygon [] [OgrGeometry.mk wkbLinearRing [] []], OgrGeometry.mk wkbPolygon [] [OgrGeometry.mk wkbLinearRing [] []]]).gtype = wkbMultiPolygon ∨ (OgrGeometry.mk wkbMultiPolygon [] [OgrGeometry.mk wkbPolygon [] [OgrGeometry.mk wkbLinearRing [] []], OgrGeometry.mk wkbPolygon [] [OgrGeometry.mk wkbLinearRing [] []]]).gtype = wkbMultiPolygon25D) ∧
    ((1 < (OgrGeometry.mk wkbMultiPolygon [] [OgrGeometry.mk wkbPolygon [] [OgrGeometry.mk wkbLinearRing [] []], OgrGeometry.mk wkbPolygon [] [OgrGeometry.mk wkbLinearRing [] []]]).children.length →
        (∀ p ∈ (OgrGeometry.mk wkbMultiPolygon [] [OgrGeometry.mk wkbPolygon [] [OgrGeometry.mk wkbLinearRing [] []], OgrGeometry.mk wkbPolygon [] [OgrGeometry.mk wkbLinearRing [] []]]).children, p.children ≠ []) →
        (∀ r ∈ (OsmData.mk 0 1800 [] [] [] [] 0 []).relations, ¬ r.id = (OsmData.mk 0 1800 [] [] [] [] 0 []).next_id) →
        ∃ R st2, parse_collection (Translation.mk (fun _ _ _ => none) (fun _ _ _ => NodeKey.custom 0)) (OsmData.mk 0 1800 [] [] [] [] 0 []) (OgrGeometry.mk wkbMultiPolygon [] [OgrGeometry.mk wkbPolygon [] [OgrGeometry.mk wkbLinearRing [] []], OgrGeometry.mk wkbPolygon [] [OgrGeometry.mk wkbLinearRing [] []]]) ([] : Tags) =
            .ok ([some (.rel R)], st2) ∧
          R.id = (OsmData.mk 0 1800 [] [] [] [] 0 []).next_id ∧ R.tags = ([] : Tags) ∧
          R.members.map Prod.snd =
            ((OgrGeometry.mk wkbMultiPolygon [] [OgrGeometry.mk wkbPolygon [] [OgrGeometry.mk wkbLinearRing [] []], OgrGeometry.mk wkbPolygon [] [OgrGeometry.mk wkbLinearRing [] []]]).children.map (fun p =>
              "outer" :: (p.children.drop 1).map (fun _ => "inner"))).flatten ∧
          st2.relations.length = (OsmData.mk 0 1800 [] [] [] [] 0 []).relations.length + 1) ∧
      (∀ c0, (OgrGeometry.mk wkbMultiPolygon [] [OgrGeometry.mk wkbPolygon [] [OgrGeometry.mk wkbLinearRing [] []], OgrGeometry.mk wkbPolygon [] [OgrGeometry.mk wkbLinearRing [] []]]).children = [c0] →
        parse_collection (Translation.mk (fun _ _ _ => none) (fun _ _ _ => NodeKey.custom 0)) (OsmData.mk 0 1800 [] [] [] [] 0 []) (OgrGeometry.mk wkbMultiPolygon [] [OgrGeometry.mk wkbPolygon [] [OgrGeometry.mk wkbLinearRing [] []], OgrGeometry.mk wkbPolygon [] [OgrGeometry.mk wkbLinearRing [] []]]) ([] : Tags) =
          .ok ([(parse_polygon (Translation.mk (fun _ _ _ => none) (fun _ _ _ => NodeKey.custom 0)) (OsmData.mk 0 1800 [] [] [] [] 0 []) c0 ([] : Tags)).1],
            (parse_polygon (Translation.mk (fun _ _ _ => none) (fun _ _ _ => NodeKey.custom 0)) (OsmData.mk 0 1800 [] [] [] [] 0 []) c0 ([] : Tags)).2))) :=
  ⟨Or.inl rfl,
    parse_collection_multipolygon (Translation.mk (fun _ _ _ => none) (fun _ _ _ => NodeKey.custom 0)) (OsmData.mk 0 1800 [] [] [] [] 0 []) (OgrGeometry.mk wkbMultiPolygon [] [OgrGeometry.mk wkbPolygon [] [OgrGeometry.mk wkbLinearRing [] []], OgrGeometry.mk wkbPolygon [] [OgrGeometry.mk wkbLinearRing [] []]]) ([] : Tags) (Or.inl rfl)⟩


/-! ## Claim C8: error handling of the polygon parser -/

/-- Counterexample to C8 as stated: a polygon whose single (short)
exterior ring is not of a linestring type is not skipped — the parser
takes the one-short-ring shortcut, which never checks the ring type, and
produces a way entity. -/
theorem parse_polygon_nonline_ring_cex :
    ¬ (((OgrGeometry.mk wkbPolygon [] [OgrGeometry.mk wkbPoint [(0, 0, 0)] []]).children.getD 0 defGeom).gtype = wkbLineString ∨
       ((OgrGeometry.mk wkbPolygon [] [OgrGeometry.mk wkbPoint [(0, 0, 0)] []]).children.getD 0 defGeom).gtype = wkbLinearRing ∨
       ((OgrGeometry.mk wkbPolygon [] [OgrGeometry.mk wkbPoint [(0, 0, 0)] []]).children.getD 0 defGeom).gtype = wkbLineString25D) ∧
    ¬ (parse_polygon (Translation.mk (fun _ _ _ => none) (fun _ _ _ => NodeKey.custom 0)) (OsmData.mk 0 1800 [] [] [] [] 0 []) (OgrGeometry.mk wkbPolygon [] [OgrGeometry.mk wkbPoint [(0, 0, 0)] []]) ([] : Tags)).1 = none := by
  constructor
  · decide
  · have heq : parse_polygon (Translation.mk (fun _ _ _ => none) (fun _ _ _ => NodeKey.custom 0)) (OsmData.mk 0 1800 [] [] [] [] 0 []) (OgrGeometry.mk wkbPolygon [] [OgrGeometry.mk wkbPoint [(0, 0, 0)] []]) ([] : Tags) =
        (some (.way (parse_linestring (Translation.mk (fun _ _ _ => none) (fun _ _ _ => NodeKey.custom 0)) (OsmData.mk 0 1800 [] [] [] [] 0 [])
            ((OgrGeometry.mk wkbPolygon [] [OgrGeometry.mk wkbPoint [(0, 0, 0)] []]).children.getD 0 defGeom) ([] : Tags)).1),
          (parse_linestring (Translation.mk (fun _ _ _ => none) (fun _ _ _ => NodeKey.custom 0)) (OsmData.mk 0 1800 [] [] [] [] 0 [])
            ((OgrGeometry.mk wkbPolygon [] [OgrGeometry.mk wkbPoint [(0, 0, 0)] []]).children.getD 0 defGeom) ([] : Tags)).2) := by
      simp only [parse_polygon]
      rw [if_neg (by decide), if_pos (by decide)]
    rw [heq]
    simp

/-- C8 (amended): a polygon with zero rings is skipped with only the
warning `"Polygon with no rings?"` logged; a polygon that does not take
the single-short-ring shortcut and whose first ring is not of a
linestring type is skipped with only the warning
`"Polygon with no exterior ring?"` logged; neither case produces an
entity or an error. -/
theorem parse_polygon_error_handling (tr : Translation) (st : OsmData)
    (g : OgrGeometry) (tags : Tags) :
    (g.children.length = 0 →
      parse_polygon tr st g tags = (none, warn st "Polygon with no rings?")) ∧
    (¬ g.children.length = 0 →
     ¬ (g.children.length = 1 ∧
        ((g.children.getD 0 defGeom).points.length : Int) ≤ st.max_points_in_way) →
     ¬ ((g.children.getD 0 defGeom).gtype = wkbLineString ∨
        (g.children.getD 0 defGeom).gtype = wkbLinearRing ∨
        (g.children.getD 0 defGeom).gtype = wkbLineString25D) →
     parse_polygon tr st g tags = (none, warn st "Polygon with no exterior ring?")) := by
  constructor
  · intro h0
    simp only [parse_polygon]
    rw [if_pos h0]
  · intro h0 h1 h2
    simp only [parse_polygon]
    rw [if_neg h0, if_neg h1, if_neg h2]

/-- Witness for C8: a ring-less polygon and a two-point-ring polygon,
each hitting its warn-and-skip branch. -/
theorem parse_polygon_error_handling_witness :
    ((OgrGeometry.mk wkbPolygon [] []).children.length = 0 →
      parse_polygon (Translation.mk (fun _ _ _ => none) (fun _ _ _ => NodeKey.custom 0)) (OsmData.mk 0 1800 [] [] [] [] 0 []) (OgrGeometry.mk wkbPolygon [] []) ([] : Tags) =
        (none, warn (OsmData.mk 0 1800 [] [] [] [] 0 []) "Polygon with no rings?")) ∧
    parse_polygon (Translation.mk (fun _ _ _ => none) (fun _ _ _ => NodeKey.custom 0)) (OsmData.mk 0 1800 [] [] [] [] 0 []) (OgrGeometry.mk wkbPolygon [] []) ([] : Tags) =
      (none, warn (OsmData.mk 0 1800 [] [] [] [] 0 []) "Polygon with no rings?") ∧
    parse_polygon (Translation.mk (fun _ _ _ => none) (fun _ _ _ => NodeKey.custom 0)) (OsmData.mk 0 1800 [] [] [] [] 0 []) (OgrGeometry.mk wkbPolygon [] [OgrGeometry.mk wkbPoint [(0, 0, 0)] [], OgrGeometry.mk wkbPoint [(1, 1, 0)] []]) ([] : Tags) =
      (none, warn (OsmData.mk 0 1800 [] [] [] [] 0 []) "Polygon with no exterior ring?") :=
  ⟨(parse_polygon_error_handling (Translation.mk (fun _ _ _ => none) (fun _ _ _ => NodeKey.custom 0)) (OsmData.mk 0 1800 [] [] [] [] 0 []) (OgrGeometry.mk wkbPolygon [] []) ([] : Tags)).1,
   (parse_polygon_error_handling (Translation.mk (fun _ _ _ => none) (fun _ _ _ => NodeKey.custom 0)) (OsmData.mk 0 1800 [] [] [] [] 0 []) (OgrGeometry.mk wkbPolygon [] []) ([] : Tags)).1 rfl,
   (parse_polygon_error_handling (Translation.mk (fun _ _ _ => none) (fun _ _ _ => NodeKey.custom 0)) (OsmData.mk 0 1800 [] [] [] [] 0 []) (OgrGeometry.mk wkbPolygon [] [OgrGeometry.mk wkbPoint [(0, 0, 0)] [], OgrGeometry.mk wkbPoint [(1, 1, 0)] []]) ([] : Tags)).2
     (by decide) (by decide) (by decide)⟩


end Ogr2Osm
